import Mathlib

/-!
Verification of the community-feed data-layer engine: the preorder-interval
comment tree, the like ledger with cached counters, and the trailing-window
karma aggregator. The backend operations are modelled from the specification
(the repository ships only documentation excerpts and client code for them);
each modelled definition carries a doc comment saying so.
-/

set_option maxRecDepth 4000

/-! ## Karma Aggregator -/

/-- Modelled from the spec: the kind of a likeable target (Post or Comment).
The backend model classes PostLike and CommentLike are not in the repository
sources, only excerpted in documentation. -/
inductive TargetKind where
  | post
  | comment
deriving DecidableEq

/-- Modelled from the spec: a like event in the ledger, section 3 of the spec.
Fields actorId, targetKind, targetId, createdAt. Timestamps are integers
(seconds); the window arithmetic uses integer subtraction. -/
structure LikeEvent where
  actorId : Nat
  targetKind : TargetKind
  targetId : Nat
  createdAt : Int
deriving DecidableEq

/-- Modelled from the spec: karma weight of a like by target kind, 5 for a
post like and 1 for a comment like. -/
def weight : TargetKind → Nat
  | .post => 5
  | .comment => 1

/-- Modelled from the spec: the events whose createdAt is at or after the
cutoff, i.e. inside the trailing window. -/
def inWindow (events : List LikeEvent) (cutoff : Int) : List LikeEvent :=
  events.filter (fun e => decide (cutoff ≤ e.createdAt))

/-- Modelled from the spec: total karma credited to user u by the in-window
events, resolving each event to the author of its target and summing the
weights. The resolve argument is the external resolveAuthor collaborator of
section 6 of the spec. -/
def karmaOf (resolve : TargetKind → Nat → Nat) (events : List LikeEvent)
    (cutoff : Int) (u : Nat) : Nat :=
  (((inWindow events cutoff).filter
      (fun e => resolve e.targetKind e.targetId == u)).map
    (fun e => weight e.targetKind)).sum

/-- Modelled from the spec: the distinct author ids credited by at least one
in-window event. -/
def creditedAuthors (resolve : TargetKind → Nat → Nat) (events : List LikeEvent)
    (cutoff : Int) : List Nat :=
  ((inWindow events cutoff).map (fun e => resolve e.targetKind e.targetId)).dedup

/-- Modelled from the spec: leaderboard ordering on (userId, summed karma)
pairs - descending by karma, ties broken by ascending user id. -/
def lbRel (a b : Nat × Nat) : Prop :=
  b.2 < a.2 ∨ (a.2 = b.2 ∧ a.1 ≤ b.1)

instance : DecidableRel lbRel := fun a b => by
  unfold lbRel
  infer_instance

instance : IsTotal (Nat × Nat) lbRel := by
  constructor
  intro a b
  unfold lbRel
  omega

instance : IsTrans (Nat × Nat) lbRel := by
  constructor
  intro a b c hab hbc
  unfold lbRel at *
  omega

/-- A returned leaderboard row: user id, summed karma, 1-based rank. -/
structure LeaderboardEntry where
  userId : Nat
  karma : Nat
  rank : Nat
deriving DecidableEq

/-- Attach 1-based ranks to the sorted, truncated (userId, karma) pairs,
starting from the given rank. -/
def withRanks : Nat → List (Nat × Nat) → List LeaderboardEntry
  | _, [] => []
  | i, (u, k) :: rest => ⟨u, k, i⟩ :: withRanks (i + 1) rest

/-- Modelled from the spec: leaderboard(windowSeconds, topK) - compute the
cutoff, sum weighted in-window contributions per resolved author, sort
descending by karma with ascending-user-id tie-break, take the first topK
entries and attach 1-based ranks (spec section 4.4; the repository only
excerpts this views.py code in documentation). -/
def leaderboard (resolve : TargetKind → Nat → Nat) (events : List LikeEvent)
    (now windowSeconds : Int) (topK : Nat) : List LeaderboardEntry :=
  let cutoff := now - windowSeconds
  let pairs := (creditedAuthors resolve events cutoff).map
    (fun u => (u, karmaOf resolve events cutoff u))
  let sorted := List.insertionSort lbRel pairs
  withRanks 1 (sorted.take topK)

/-- The concrete scenario of spec section 8: author A (id 1) has post 1,
author D (id 4) has comment 10. -/
def resolveEx : TargetKind → Nat → Nat
  | .post, 1 => 1
  | .comment, 10 => 4
  | _, _ => 0

/-- The concrete scenario events: B (id 2) and C (id 3) like the post of A at
t0 and t0 plus one hour; B likes the comment of D at t0 plus two hours. -/
def eventsEx : List LikeEvent :=
  [⟨2, .post, 1, 0⟩, ⟨3, .post, 1, 3600⟩, ⟨2, .comment, 10, 7200⟩]

/-- An event with its actor id rewritten arbitrarily. -/
def reActor (f : Nat → Nat) (e : LikeEvent) : LikeEvent :=
  { e with actorId := f e.actorId }

/-! ## Like Ledger -/

/-- Modelled from the spec: a likeable target (post or comment) carrying its
cached like counter (spec section 3, CachedCounter). -/
structure Target where
  kind : TargetKind
  id : Nat
  likeCount : Nat
deriving DecidableEq

/-- Modelled from the spec: the ledger state - the stored targets with their
cached counters and the list of live like events. -/
structure LedgerState where
  targets : List Target
  events : List LikeEvent
deriving DecidableEq

/-- Modelled from the spec: outcome of a like or unlike call (spec
section 7). -/
inductive LikeResult where
  | ok (newCount : Nat)
  | alreadyLiked
  | notLiked
  | notFound
deriving DecidableEq

/-- Look up a stored target by kind and id. -/
def findTarget (s : LedgerState) (k : TargetKind) (tid : Nat) : Option Target :=
  s.targets.find? (fun t => t.kind == k && t.id == tid)

/-- Whether a live like event by this actor on this target exists. -/
def liveLike (s : LedgerState) (a : Nat) (k : TargetKind) (tid : Nat) : Bool :=
  s.events.any (fun e => e.actorId == a && e.targetKind == k && e.targetId == tid)

/-- Increment the cached counter of the matching target. -/
def bumpLike (k : TargetKind) (tid : Nat) (u : Target) : Target :=
  if u.kind == k && u.id == tid then { u with likeCount := u.likeCount + 1 } else u

/-- Decrement the cached counter of the matching target. -/
def bumpUnlike (k : TargetKind) (tid : Nat) (u : Target) : Target :=
  if u.kind == k && u.id == tid then { u with likeCount := u.likeCount - 1 } else u

/-- Modelled from the spec: like(actorId, targetKind, targetId). The check,
the event insert and the counter increment form one atomic unit, modelled as
a single transition (spec section 4.3; the backend view exists only as a
documentation excerpt). On failure the state is returned unchanged. -/
def like (s : LedgerState) (a : Nat) (k : TargetKind) (tid : Nat) (now : Int) :
    LikeResult × LedgerState :=
  match findTarget s k tid with
  | none => (.notFound, s)
  | some t =>
    if liveLike s a k tid then (.alreadyLiked, s)
    else (.ok (t.likeCount + 1),
      { targets := s.targets.map (bumpLike k tid),
        events := ⟨a, k, tid, now⟩ :: s.events })

/-- Modelled from the spec: unlike(actorId, targetKind, targetId), removing
the live event and decrementing the counter as one atomic unit. -/
def unlike (s : LedgerState) (a : Nat) (k : TargetKind) (tid : Nat) :
    LikeResult × LedgerState :=
  match findTarget s k tid with
  | none => (.notFound, s)
  | some t =>
    if liveLike s a k tid then
      (.ok (t.likeCount - 1),
        { targets := s.targets.map (bumpUnlike k tid),
          events := s.events.filter (fun e =>
            !(e.actorId == a && e.targetKind == k && e.targetId == tid)) })
    else (.notLiked, s)

/-- The cached counter of a target as observable through lookup. -/
def counterOf (s : LedgerState) (k : TargetKind) (tid : Nat) : Option Nat :=
  (findTarget s k tid).map (fun t => t.likeCount)

/-- The live events on one target. -/
def eventsFor (s : LedgerState) (k : TargetKind) (tid : Nat) : List LikeEvent :=
  s.events.filter (fun e => e.targetKind == k && e.targetId == tid)

/-- Modelled from the spec: an initial state - stored targets with zeroed
counters and an empty ledger. -/
def initLedger (ts : List (TargetKind × Nat)) : LedgerState :=
  { targets := ts.map (fun p => ⟨p.1, p.2, 0⟩), events := [] }

/-- States reachable from an initial state by finite sequences of like and
unlike calls; each call is one atomic transition, so every reachable state
is quiescent. -/
inductive LedgerReachable : LedgerState → Prop where
  | init : ∀ ts, LedgerReachable (initLedger ts)
  | stepLike : ∀ s a k tid now, LedgerReachable s →
      LedgerReachable (like s a k tid now).2
  | stepUnlike : ∀ s a k tid, LedgerReachable s →
      LedgerReachable (unlike s a k tid).2

/-- At most one live event per (actor, kind, target) triple. -/
def UniqueLive (s : LedgerState) : Prop :=
  s.events.Pairwise (fun e f =>
    ¬(e.actorId = f.actorId ∧ e.targetKind = f.targetKind ∧ e.targetId = f.targetId))

/-- Every cached counter equals the number of live events on its target. -/
def CounterInv (s : LedgerState) : Prop :=
  ∀ t ∈ s.targets, t.likeCount = (eventsFor s t.kind t.id).length

/-! ## Comment Tree -/

/-- Modelled from the spec: a comment node with its preorder-interval
encoding (spec section 3). The django-mptt library that maintains these
fields in the backend is not part of the repository sources; the interval
semantics follows spec sections 3 and 4.2. -/
structure CommentNode where
  id : Nat
  parentId : Option Nat
  authorId : Nat
  content : String
  createdAt : Nat
  left : Nat
  right : Nat
  depth : Nat
deriving DecidableEq

/-- Shift one boundary value: values at or above the threshold move up by
delta. -/
def shiftVal (threshold delta v : Nat) : Nat :=
  if threshold ≤ v then v + delta else v

/-- Modelled from the spec: shiftIntervals(treeId, threshold, delta) on one
tree - every left or right boundary at or above the threshold grows by
delta; the Indexer only ever calls it with delta = 2 to open a gap. -/
def shiftIntervals (t : List CommentNode) (threshold delta : Nat) :
    List CommentNode :=
  t.map (fun n => { n with left := shiftVal threshold delta n.left,
                           right := shiftVal threshold delta n.right })

/-- The largest right boundary in the tree, 0 when the tree is empty. -/
def maxRight (t : List CommentNode) : Nat :=
  t.foldr (fun n acc => max n.right acc) 0

/-- Modelled from the spec: addComment (spec section 4.2). The caller
supplies a fresh node id; the call fails when the id already exists
(Conflict) or the parent id is missing (NotFound). A top-level comment takes
left = maxRight + 1 (so left 1 on the empty tree) and depth 0; a reply opens
a 2-wide gap at the parent right boundary and sits at depth parent + 1. The
new row is appended, so list order is creation order. -/
def addComment (t : List CommentNode) (parentId : Option Nat)
    (newId authorId : Nat) (content : String) (createdAt : Nat) :
    Option (List CommentNode) :=
  if t.any (fun m => m.id == newId) then none
  else
    match parentId with
    | none =>
      let l := maxRight t + 1
      some (t ++ [⟨newId, none, authorId, content, createdAt, l, l + 1, 0⟩])
    | some p =>
      match t.find? (fun m => m.id == p) with
      | none => none
      | some P =>
        let ip := P.right
        some (shiftIntervals t ip 2 ++
          [⟨newId, some p, authorId, content, createdAt, ip, ip + 1, P.depth + 1⟩])

/-- Trees obtained from the empty tree by a finite sequence of successful
addComment calls. -/
inductive Built : List CommentNode → Prop where
  | nil : Built []
  | step : ∀ {t t' : List CommentNode} (parentId : Option Nat)
      (newId authorId : Nat) (content : String) (createdAt : Nat), Built t →
      addComment t parentId newId authorId content createdAt = some t' →
      Built t'

/-- Strict interval containment: P strictly contains N. -/
def contains (P N : CommentNode) : Prop :=
  P.left < N.left ∧ N.right < P.right

instance : ∀ P N : CommentNode, Decidable (contains P N) := fun P N => by
  unfold contains
  infer_instance

/-- All interval boundaries of the tree, two per node, in node order. -/
def boundaries (t : List CommentNode) : List Nat :=
  t.flatMap (fun n => [n.left, n.right])

/-- The child relation recorded by parentId. -/
def ChildOf (t : List CommentNode) (m n : CommentNode) : Prop :=
  m ∈ t ∧ n ∈ t ∧ m.parentId = some n.id

/-- Strict descendant: the transitive closure of the recorded child
relation. -/
def Descendant (t : List CommentNode) : CommentNode → CommentNode → Prop :=
  Relation.TransGen (ChildOf t)

instance : DecidableRel (fun a b : CommentNode => a.left ≤ b.left) :=
  fun a b => Nat.decLe a.left b.left

instance : IsTotal CommentNode (fun a b : CommentNode => a.left ≤ b.left) :=
  ⟨fun a b => Nat.le_total a.left b.left⟩

instance : IsTrans CommentNode (fun a b : CommentNode => a.left ≤ b.left) :=
  ⟨fun a b c hab hbc => Nat.le_trans hab hbc⟩

/-- Modelled from the spec: loadTree returns the stored nodes ordered by
ascending left boundary, which is preorder / document order (spec
section 4.1, rangeQuery ordering). -/
def loadTree (t : List CommentNode) : List CommentNode :=
  List.insertionSort (fun a b : CommentNode => a.left ≤ b.left) t

/-- Pop the open ancestors that do not contain the next node: the top is
kept exactly when the next node ends inside it. -/
def popStack (n : CommentNode) : List CommentNode → List CommentNode
  | [] => []
  | top :: rest => if top.right < n.right then popStack n rest else top :: rest

/-- Modelled from the spec: the single linear reconstruction pass of spec
section 4.2 - walk the preorder sequence once keeping a stack of currently
open ancestors keyed by interval containment, attach each node to the
current stack top (none when the stack is empty), recording (id, attached
parent id). -/
def reconstructAux (stack : List CommentNode) :
    List CommentNode → List (Nat × Option Nat)
  | [] => []
  | n :: rest =>
    (n.id, (popStack n stack).head?.map (fun q => q.id)) ::
      reconstructAux (n :: popStack n stack) rest

/-- Reconstruction of the hierarchy from the flat preorder sequence. -/
def reconstruct (seq : List CommentNode) : List (Nat × Option Nat) :=
  reconstructAux [] seq

/-- The stack contents after processing a prefix of the preorder walk: the
processed nodes that contain every node processed after them, innermost on
top. -/
def stackOf (pre : List CommentNode) : List CommentNode :=
  (pre.filter (fun q => pre.all
    (fun m => decide (q.left < m.left → m.right < q.right)))).reverse

/-- The well-formedness invariant maintained by addComment: distinct ids;
the 2n boundary values are pairwise distinct and are exactly 1..2n; every
interval is proper; any two intervals are nested or disjoint; a recorded
parent strictly contains its child and is its minimal container; roots are
contained in no interval; siblings are disjoint and ordered left-to-right in
creation order. -/
structure WF (t : List CommentNode) : Prop where
  nodupIds : (t.map (fun n => n.id)).Nodup
  bNodup : (boundaries t).Nodup
  bMem : ∀ k : Nat, k ∈ boundaries t ↔ 1 ≤ k ∧ k ≤ 2 * t.length
  lw : ∀ n ∈ t, n.left < n.right
  laminar : ∀ m ∈ t, ∀ n ∈ t, m ≠ n →
    m.right < n.left ∨ n.right < m.left ∨ contains m n ∨ contains n m
  parentCont : ∀ n ∈ t, ∀ p, n.parentId = some p →
    ∃ P ∈ t, P.id = p ∧ contains P n
  rootNoCont : ∀ n ∈ t, n.parentId = none → ∀ q ∈ t, ¬ contains q n
  parentMin : ∀ n ∈ t, ∀ p, n.parentId = some p → ∀ P ∈ t, P.id = p →
    ∀ q ∈ t, contains q n → q = P ∨ contains q P
  sibOrder : t.Pairwise (fun m n => m.parentId = n.parentId → m.right < n.left)

/-- Concrete scenario of spec section 8: state after the first top-level
comment. -/
def tEx1 : List CommentNode := [⟨1, none, 7, "c1", 0, 1, 2, 0⟩]

/-- State after the second top-level comment. -/
def tEx2 : List CommentNode :=
  [⟨1, none, 7, "c1", 0, 1, 2, 0⟩, ⟨2, none, 7, "c2", 1, 3, 4, 0⟩]

/-- State after the third top-level comment. -/
def tEx3 : List CommentNode :=
  [⟨1, none, 7, "c1", 0, 1, 2, 0⟩, ⟨2, none, 7, "c2", 1, 3, 4, 0⟩,
   ⟨3, none, 7, "c3", 2, 5, 6, 0⟩]

/-- State after the reply nested under the second comment: the gap opens at
insertionPoint 4, so only the boundaries of the second and third comments at
or above 4 move. -/
def tEx4 : List CommentNode :=
  [⟨1, none, 7, "c1", 0, 1, 2, 0⟩, ⟨2, none, 7, "c2", 1, 3, 6, 0⟩,
   ⟨3, none, 7, "c3", 2, 7, 8, 0⟩, ⟨4, some 2, 8, "r", 3, 4, 5, 1⟩]

/-! ### Aggregator lemmas -/

theorem karmaOf_nil (resolve : TargetKind → Nat → Nat) (cutoff : Int) (u : Nat) :
    karmaOf resolve [] cutoff u = 0 := rfl

theorem karmaOf_cons (resolve : TargetKind → Nat → Nat) (e : LikeEvent)
    (events : List LikeEvent) (cutoff : Int) (u : Nat) :
    karmaOf resolve (e :: events) cutoff u =
      (if cutoff ≤ e.createdAt ∧ resolve e.targetKind e.targetId = u
        then weight e.targetKind else 0) + karmaOf resolve events cutoff u := by
  unfold karmaOf inWindow
  by_cases h1 : cutoff ≤ e.createdAt
  · by_cases h2 : resolve e.targetKind e.targetId = u
    · simp [List.filter_cons, h1, h2]
    · simp [List.filter_cons, h1, h2]
  · simp [List.filter_cons, h1]

theorem karmaOf_eq_counts (resolve : TargetKind → Nat → Nat)
    (events : List LikeEvent) (cutoff : Int) (u : Nat) :
    karmaOf resolve events cutoff u =
      5 * events.countP (fun e => decide (cutoff ≤ e.createdAt) &&
            (e.targetKind == TargetKind.post) &&
            (resolve TargetKind.post e.targetId == u)) +
      1 * events.countP (fun e => decide (cutoff ≤ e.createdAt) &&
            (e.targetKind == TargetKind.comment) &&
            (resolve TargetKind.comment e.targetId == u)) := by
  induction events with
  | nil => rfl
  | cons e es ih =>
    rw [karmaOf_cons, ih, List.countP_cons, List.countP_cons]
    rcases hk : e.targetKind with _ | _ <;>
      by_cases h1 : cutoff ≤ e.createdAt <;>
        by_cases h2 : resolve e.targetKind e.targetId = u <;>
          simp [hk, h1, hk ▸ h2, weight] <;> ring

/-- Membership in the credited-author list means some in-window event
resolves to that author. -/
theorem mem_creditedAuthors {resolve : TargetKind → Nat → Nat}
    {events : List LikeEvent} {cutoff : Int} {u : Nat} :
    u ∈ creditedAuthors resolve events cutoff ↔
      ∃ e ∈ events, cutoff ≤ e.createdAt ∧ resolve e.targetKind e.targetId = u := by
  unfold creditedAuthors inWindow
  simp [List.mem_dedup, List.mem_filter, eq_comm]
  constructor
  · rintro ⟨e, ⟨he, hc⟩, hr⟩
    exact ⟨e, he, by simpa using hc, hr⟩
  · rintro ⟨e, he, hc, hr⟩
    exact ⟨e, ⟨he, by simpa using hc⟩, hr⟩

/-- A credited author earned at least the weight of one in-window event. -/
theorem one_le_karmaOf_of_credited {resolve : TargetKind → Nat → Nat}
    {events : List LikeEvent} {cutoff : Int} {u : Nat}
    (h : u ∈ creditedAuthors resolve events cutoff) :
    1 ≤ karmaOf resolve events cutoff u := by
  unfold creditedAuthors at h
  rw [List.mem_dedup] at h
  obtain ⟨e, he, hr⟩ := List.mem_map.mp h
  unfold karmaOf
  have hmem : e ∈ (inWindow events cutoff).filter
      (fun e => resolve e.targetKind e.targetId == u) := by
    rw [List.mem_filter]
    exact ⟨he, by simp [hr]⟩
  have hle : weight e.targetKind ≤
      (((inWindow events cutoff).filter
          (fun e => resolve e.targetKind e.targetId == u)).map
        (fun e => weight e.targetKind)).sum :=
    List.single_le_sum (fun x _ => Nat.zero_le x) _ (List.mem_map_of_mem _ hmem)
  have hw : 1 ≤ weight e.targetKind := by cases e.targetKind <;> simp [weight]
  omega

theorem withRanks_map_proj (s : Nat) (l : List (Nat × Nat)) :
    (withRanks s l).map (fun e => (e.userId, e.karma)) = l := by
  induction l generalizing s with
  | nil => rfl
  | cons p rest ih => cases p; simp [withRanks, ih]

theorem withRanks_length (s : Nat) (l : List (Nat × Nat)) :
    (withRanks s l).length = l.length := by
  induction l generalizing s with
  | nil => rfl
  | cons p rest ih => cases p; simp [withRanks, ih]

theorem withRanks_get_rank (s : Nat) (l : List (Nat × Nat)) (i : Nat)
    (h : i < (withRanks s l).length) : ((withRanks s l).get ⟨i, h⟩).rank = s + i := by
  induction l generalizing s i with
  | nil => simp [withRanks] at h
  | cons p rest ih =>
    cases p
    cases i with
    | zero => rfl
    | succ j =>
      have hj : j < (withRanks (s + 1) rest).length := by
        simp only [withRanks, List.length_cons] at h
        omega
      have := ih (s + 1) j hj
      simp only [withRanks, List.get_cons_succ]
      rw [this]
      omega

theorem mem_withRanks {s : Nat} {l : List (Nat × Nat)} {e : LeaderboardEntry}
    (h : e ∈ withRanks s l) : (e.userId, e.karma) ∈ l := by
  have := List.mem_map_of_mem (fun e => (e.userId, e.karma)) h
  rwa [withRanks_map_proj] at this

/-- Every leaderboard entry is a credited author paired with its summed
karma. -/
theorem mem_leaderboard {resolve : TargetKind → Nat → Nat}
    {events : List LikeEvent} {now w : Int} {topK : Nat} {e : LeaderboardEntry}
    (h : e ∈ leaderboard resolve events now w topK) :
    e.userId ∈ creditedAuthors resolve events (now - w) ∧
      e.karma = karmaOf resolve events (now - w) e.userId := by
  unfold leaderboard at h
  have h1 := mem_withRanks h
  have h2 := List.mem_of_mem_take h1
  rw [List.mem_insertionSort] at h2
  obtain ⟨u, hu, hp⟩ := List.mem_map.mp h2
  refine ⟨?_, ?_⟩
  · have : e.userId = u := congrArg Prod.fst hp.symm
    rw [this]; exact hu
  · have h3 : e.userId = u := congrArg Prod.fst hp.symm
    have h4 : e.karma = karmaOf resolve events (now - w) u :=
      congrArg Prod.snd hp.symm
    rw [h4, h3]

theorem leaderboard_length_le (resolve : TargetKind → Nat → Nat)
    (events : List LikeEvent) (now w : Int) (topK : Nat) :
    (leaderboard resolve events now w topK).length ≤ topK := by
  unfold leaderboard
  rw [withRanks_length]
  exact le_trans (List.length_take_le _ _) (le_refl _)

/-- The leaderboard output is strictly ordered: descending karma, and among
equal karma ascending user id. -/
theorem leaderboard_pairwise (resolve : TargetKind → Nat → Nat)
    (events : List LikeEvent) (now w : Int) (topK : Nat) :
    (leaderboard resolve events now w topK).Pairwise
      (fun a b => b.karma < a.karma ∨ (a.karma = b.karma ∧ a.userId < b.userId)) := by
  have hkeys : (((creditedAuthors resolve events (now - w)).map
      (fun u => (u, karmaOf resolve events (now - w) u))).map Prod.fst).Nodup := by
    rw [List.map_map]
    have h : (Prod.fst ∘ fun u => (u, karmaOf resolve events (now - w) u)) = id := rfl
    rw [h, List.map_id]
    exact List.nodup_dedup _
  have hsorted : (List.insertionSort lbRel ((creditedAuthors resolve events (now - w)).map
      (fun u => (u, karmaOf resolve events (now - w) u)))).Pairwise lbRel :=
    List.sorted_insertionSort lbRel _
  have hperm := List.perm_insertionSort lbRel ((creditedAuthors resolve events (now - w)).map
    (fun u => (u, karmaOf resolve events (now - w) u)))
  have hnd : ((List.insertionSort lbRel ((creditedAuthors resolve events (now - w)).map
      (fun u => (u, karmaOf resolve events (now - w) u)))).map Prod.fst).Pairwise (· ≠ ·) :=
    ((hperm.map Prod.fst).nodup_iff).mpr hkeys
  have hne : (List.insertionSort lbRel ((creditedAuthors resolve events (now - w)).map
      (fun u => (u, karmaOf resolve events (now - w) u)))).Pairwise
        (fun a b => a.1 ≠ b.1) := List.pairwise_map.mp hnd
  have hstrict : (List.insertionSort lbRel ((creditedAuthors resolve events (now - w)).map
      (fun u => (u, karmaOf resolve events (now - w) u)))).Pairwise
        (fun a b : Nat × Nat => b.2 < a.2 ∨ (a.2 = b.2 ∧ a.1 < b.1)) := by
    refine (hsorted.and hne).imp ?_
    intro a b hab
    rcases hab with ⟨hr, hne'⟩
    unfold lbRel at hr
    omega
  have htake := hstrict.sublist (List.take_sublist topK _)
  have hmapped : (((withRanks 1 ((List.insertionSort lbRel
      ((creditedAuthors resolve events (now - w)).map
        (fun u => (u, karmaOf resolve events (now - w) u)))).take topK)).map
      (fun e => (e.userId, e.karma))).Pairwise
        (fun a b : Nat × Nat => b.2 < a.2 ∨ (a.2 = b.2 ∧ a.1 < b.1))) := by
    rw [withRanks_map_proj]
    exact htake
  exact List.pairwise_map.mp hmapped

theorem leaderboard_rank (resolve : TargetKind → Nat → Nat)
    (events : List LikeEvent) (now w : Int) (topK : Nat) (i : Nat)
    (h : i < (leaderboard resolve events now w topK).length) :
    ((leaderboard resolve events now w topK).get ⟨i, h⟩).rank = i + 1 := by
  have h' : i < (withRanks 1 ((List.insertionSort lbRel
      ((creditedAuthors resolve events (now - w)).map
        (fun u => (u, karmaOf resolve events (now - w) u)))).take topK)).length := h
  have hr := withRanks_get_rank 1 ((List.insertionSort lbRel
      ((creditedAuthors resolve events (now - w)).map
        (fun u => (u, karmaOf resolve events (now - w) u)))).take topK) i h'
  have : ((leaderboard resolve events now w topK).get ⟨i, h⟩).rank =
      ((withRanks 1 ((List.insertionSort lbRel
        ((creditedAuthors resolve events (now - w)).map
          (fun u => (u, karmaOf resolve events (now - w) u)))).take topK)).get
        ⟨i, h'⟩).rank := rfl
  rw [this, hr]
  omega

theorem karmaOf_map_actor (resolve : TargetKind → Nat → Nat) (f : Nat → Nat)
    (events : List LikeEvent) (cutoff : Int) (u : Nat) :
    karmaOf resolve (events.map (reActor f)) cutoff u =
      karmaOf resolve events cutoff u := by
  induction events with
  | nil => rfl
  | cons e es ih =>
    rw [List.map_cons, karmaOf_cons, karmaOf_cons, ih]
    rfl

theorem creditedAuthors_map_actor (resolve : TargetKind → Nat → Nat) (f : Nat → Nat)
    (events : List LikeEvent) (cutoff : Int) :
    creditedAuthors resolve (events.map (reActor f)) cutoff =
      creditedAuthors resolve events cutoff := by
  unfold creditedAuthors inWindow
  rw [List.filter_map, List.map_map]
  rfl

theorem leaderboard_map_actor (resolve : TargetKind → Nat → Nat) (f : Nat → Nat)
    (events : List LikeEvent) (now w : Int) (topK : Nat) :
    leaderboard resolve (events.map (reActor f)) now w topK =
      leaderboard resolve events now w topK := by
  have hp : ((creditedAuthors resolve events (now - w)).map
      (fun u => (u, karmaOf resolve (events.map (reActor f)) (now - w) u))) =
      ((creditedAuthors resolve events (now - w)).map
      (fun u => (u, karmaOf resolve events (now - w) u))) :=
    List.map_congr_left (fun u _ => by rw [karmaOf_map_actor])
  simp only [leaderboard, creditedAuthors_map_actor, hp]

/-! ### Aggregator claims -/

/-- C1: leaderboard computes the cutoff as now minus windowSeconds, credits
each in-window like on a post as 5 karma to the author of that post and each
in-window like on a comment as 1 karma to the author of that comment, and
sums the contributions per author; in the concrete scenario of the spec the
query at t0 plus 3 hours returns A with 10 karma at rank 1 and D with 1
karma at rank 2. -/
theorem C1_karma_crediting :
    (∀ (resolve : TargetKind → Nat → Nat) (events : List LikeEvent)
        (now w : Int) (u : Nat),
      karmaOf resolve events (now - w) u =
        5 * events.countP (fun e => decide (now - w ≤ e.createdAt) &&
              (e.targetKind == TargetKind.post) &&
              (resolve TargetKind.post e.targetId == u)) +
        1 * events.countP (fun e => decide (now - w ≤ e.createdAt) &&
              (e.targetKind == TargetKind.comment) &&
              (resolve TargetKind.comment e.targetId == u))) ∧
    (∀ (resolve : TargetKind → Nat → Nat) (events : List LikeEvent)
        (now w : Int) (topK : Nat),
      ∀ e ∈ leaderboard resolve events now w topK,
        e.karma = karmaOf resolve events (now - w) e.userId) ∧
    leaderboard resolveEx eventsEx 10800 86400 5 = [⟨1, 10, 1⟩, ⟨4, 1, 2⟩] :=
  ⟨fun resolve events now w u => karmaOf_eq_counts resolve events (now - w) u,
   fun _ _ _ _ _ _ he => (mem_leaderboard he).2,
   by decide⟩

/-- C2: the leaderboard is sorted descending by summed karma with ties in
ascending user id, returns at most topK entries, each entry carries a
1-based rank equal to its position, each entry carries the summed karma of
its user, and repeated queries over the same state return the same
sequence. -/
theorem C2_sorted_ranked :
    ∀ (resolve : TargetKind → Nat → Nat) (events : List LikeEvent)
      (now w : Int) (topK : Nat),
      (leaderboard resolve events now w topK).Pairwise
        (fun a b => b.karma < a.karma ∨ (a.karma = b.karma ∧ a.userId < b.userId)) ∧
      (leaderboard resolve events now w topK).length ≤ topK ∧
      (∀ (i : Nat) (h : i < (leaderboard resolve events now w topK).length),
        ((leaderboard resolve events now w topK).get ⟨i, h⟩).rank = i + 1) ∧
      (∀ e ∈ leaderboard resolve events now w topK,
        e.karma = karmaOf resolve events (now - w) e.userId) ∧
      leaderboard resolve events now w topK = leaderboard resolve events now w topK :=
  fun resolve events now w topK =>
    ⟨leaderboard_pairwise resolve events now w topK,
     leaderboard_length_le resolve events now w topK,
     fun i h => leaderboard_rank resolve events now w topK i h,
     fun _ he => (mem_leaderboard he).2,
     rfl⟩

theorem C2_sorted_ranked_witness :
    (leaderboard resolveEx eventsEx 10800 86400 5).Pairwise
      (fun a b => b.karma < a.karma ∨ (a.karma = b.karma ∧ a.userId < b.userId)) ∧
    (leaderboard resolveEx eventsEx 10800 86400 5).length ≤ 5 :=
  ⟨(C2_sorted_ranked resolveEx eventsEx 10800 86400 5).1,
   (C2_sorted_ranked resolveEx eventsEx 10800 86400 5).2.1⟩

/-- C9: no actor-equals-author filtering exists anywhere in the aggregation:
the leaderboard is invariant under arbitrary rewriting of actor ids, and the
karma credited by an event does not depend on its actor at all, so a
self-like is credited exactly like any other like. -/
theorem C9_self_likes_counted :
    (∀ (resolve : TargetKind → Nat → Nat) (f : Nat → Nat)
        (events : List LikeEvent) (now w : Int) (topK : Nat),
      leaderboard resolve (events.map (reActor f)) now w topK =
        leaderboard resolve events now w topK) ∧
    (∀ (resolve : TargetKind → Nat → Nat) (events : List LikeEvent)
        (cutoff : Int) (u a b : Nat) (k : TargetKind) (tid : Nat) (t : Int),
      karmaOf resolve (⟨a, k, tid, t⟩ :: events) cutoff u =
        karmaOf resolve (⟨b, k, tid, t⟩ :: events) cutoff u) ∧
    karmaOf resolveEx (⟨4, .comment, 10, 7200⟩ :: eventsEx) (-75600) 4 =
      1 + karmaOf resolveEx eventsEx (-75600) 4 :=
  ⟨fun resolve f events now w topK => leaderboard_map_actor resolve f events now w topK,
   fun resolve events cutoff u a b k tid t => by
     rw [karmaOf_cons, karmaOf_cons],
   by decide⟩

/-- C10: every returned entry has karma at least 1, a user with no in-window
like event on their content never appears, the result has at most topK
entries, and an empty ledger yields an empty result (no zero-karma
padding). -/
theorem C10_no_zero_karma :
    ∀ (resolve : TargetKind → Nat → Nat) (events : List LikeEvent)
      (now w : Int) (topK : Nat),
      (∀ e ∈ leaderboard resolve events now w topK,
        1 ≤ e.karma ∧ ∃ ev ∈ events, now - w ≤ ev.createdAt ∧
          resolve ev.targetKind ev.targetId = e.userId) ∧
      (∀ u : Nat, (∀ ev ∈ events, now - w ≤ ev.createdAt →
          resolve ev.targetKind ev.targetId ≠ u) →
        ∀ e ∈ leaderboard resolve events now w topK, e.userId ≠ u) ∧
      (leaderboard resolve events now w topK).length ≤ topK ∧
      leaderboard resolve [] now w topK = [] := by
  intro resolve events now w topK
  refine ⟨?_, ?_, leaderboard_length_le resolve events now w topK,
    by simp [leaderboard, creditedAuthors, inWindow, withRanks]⟩
  · intro e he
    obtain ⟨hc, hk⟩ := mem_leaderboard he
    refine ⟨?_, ?_⟩
    · rw [hk]
      exact one_le_karmaOf_of_credited hc
    · exact mem_creditedAuthors.mp hc
  · intro u hu e he hue
    obtain ⟨hc, _⟩ := mem_leaderboard he
    obtain ⟨ev, hev, hwin, hres⟩ := mem_creditedAuthors.mp hc
    exact hu ev hev hwin (hue ▸ hres)

theorem C10_no_zero_karma_witness :
    (∀ e ∈ leaderboard resolveEx eventsEx 10800 86400 5,
      1 ≤ e.karma ∧ ∃ ev ∈ eventsEx, (10800 : Int) - 86400 ≤ ev.createdAt ∧
        resolveEx ev.targetKind ev.targetId = e.userId) ∧
    leaderboard resolveEx [] 10800 86400 5 = [] :=
  ⟨(C10_no_zero_karma resolveEx eventsEx 10800 86400 5).1,
   (C10_no_zero_karma resolveEx eventsEx 10800 86400 5).2.2.2⟩

/-! ### Ledger lemmas -/

theorem bumpLike_kind (k : TargetKind) (tid : Nat) (u : Target) :
    (bumpLike k tid u).kind = u.kind := by
  unfold bumpLike
  split <;> rfl

theorem bumpLike_id (k : TargetKind) (tid : Nat) (u : Target) :
    (bumpLike k tid u).id = u.id := by
  unfold bumpLike
  split <;> rfl

theorem bumpLike_count_match {k : TargetKind} {tid : Nat} {u : Target}
    (h : u.kind = k ∧ u.id = tid) :
    (bumpLike k tid u).likeCount = u.likeCount + 1 := by
  unfold bumpLike
  simp [h.1, h.2]

theorem bumpLike_count_nomatch {k : TargetKind} {tid : Nat} {u : Target}
    (h : ¬(u.kind = k ∧ u.id = tid)) :
    (bumpLike k tid u).likeCount = u.likeCount := by
  unfold bumpLike
  split
  · rename_i hc
    exact absurd (by simpa using hc) h
  · rfl

theorem bumpUnlike_kind (k : TargetKind) (tid : Nat) (u : Target) :
    (bumpUnlike k tid u).kind = u.kind := by
  unfold bumpUnlike
  split <;> rfl

theorem bumpUnlike_id (k : TargetKind) (tid : Nat) (u : Target) :
    (bumpUnlike k tid u).id = u.id := by
  unfold bumpUnlike
  split <;> rfl

theorem bumpUnlike_count_match {k : TargetKind} {tid : Nat} {u : Target}
    (h : u.kind = k ∧ u.id = tid) :
    (bumpUnlike k tid u).likeCount = u.likeCount - 1 := by
  unfold bumpUnlike
  simp [h.1, h.2]

theorem bumpUnlike_count_nomatch {k : TargetKind} {tid : Nat} {u : Target}
    (h : ¬(u.kind = k ∧ u.id = tid)) :
    (bumpUnlike k tid u).likeCount = u.likeCount := by
  unfold bumpUnlike
  split
  · rename_i hc
    exact absurd (by simpa using hc) h
  · rfl

theorem liveLike_false_iff {s : LedgerState} {a : Nat} {k : TargetKind} {tid : Nat} :
    liveLike s a k tid = false ↔
      ∀ e ∈ s.events, ¬(e.actorId = a ∧ e.targetKind = k ∧ e.targetId = tid) := by
  constructor
  · intro hfalse e he hc
    have ht : liveLike s a k tid = true :=
      List.any_eq_true.mpr ⟨e, he, by simp [hc.1, hc.2.1, hc.2.2]⟩
    rw [hfalse] at ht
    cases ht
  · intro h
    cases hb : liveLike s a k tid
    · rfl
    · rcases List.any_eq_true.mp hb with ⟨e, he, hp⟩
      simp only [Bool.and_eq_true, beq_iff_eq] at hp
      exact absurd ⟨hp.1.1, hp.1.2, hp.2⟩ (h e he)

theorem countP_eq_one_of_pairwise {α : Type} (p : α → Bool) (l : List α)
    (hpw : l.Pairwise (fun e f => ¬(p e = true ∧ p f = true)))
    (hany : l.any p = true) : l.countP p = 1 := by
  induction l with
  | nil => simp at hany
  | cons e rest ih =>
    rw [List.pairwise_cons] at hpw
    rw [List.countP_cons]
    by_cases hp : p e = true
    · have hz : rest.countP p = 0 := by
        rw [List.countP_eq_zero]
        intro f hf hpf
        exact hpw.1 f hf ⟨hp, hpf⟩
      simp [hz, hp]
    · have hrest : rest.any p = true := by
        rcases List.any_eq_true.mp hany with ⟨x, hx, hpx⟩
        rcases List.mem_cons.mp hx with hx1 | hx1
        · exact absurd (hx1 ▸ hpx) hp
        · exact List.any_eq_true.mpr ⟨x, hx1, hpx⟩
      simp [ih hpw.2 hrest, hp]

theorem length_filter_cancel {α : Type} (q r : α → Bool) (l : List α)
    (h : ∀ e ∈ l, q e = true → r e = true) :
    ((l.filter r).filter q).length = (l.filter q).length := by
  induction l with
  | nil => rfl
  | cons e rest ih =>
    have ih' := ih (fun x hx => h x (List.mem_cons_of_mem e hx))
    simp only [List.filter_filter] at ih' ⊢
    cases hr : r e with
    | false =>
      have hq : q e = false := by
        cases hq2 : q e
        · rfl
        · exact absurd (h e (List.mem_cons_self _ _) hq2) (by simp [hr])
      simp [List.filter_cons, hr, hq, ih']
    | true =>
      cases hq : q e with
      | false => simp [List.filter_cons, hr, hq, ih']
      | true => simp [List.filter_cons, hr, hq, ih']

theorem length_filter_split {α : Type} (q key : α → Bool) (l : List α)
    (h : ∀ e ∈ l, key e = true → q e = true) :
    (l.filter q).length =
      ((l.filter (fun e => !(key e))).filter q).length + l.countP key := by
  induction l with
  | nil => rfl
  | cons e rest ih =>
    have ih' := ih (fun x hx => h x (List.mem_cons_of_mem e hx))
    simp only [List.filter_filter] at ih' ⊢
    cases hk : key e with
    | true =>
      have hq : q e = true := h e (List.mem_cons_self _ _) hk
      simp [List.filter_cons, List.countP_cons, hk, hq, ih']
      omega
    | false =>
      cases hq : q e with
      | true =>
        simp [List.filter_cons, List.countP_cons, hk, hq, ih']
        omega
      | false =>
        simp [List.filter_cons, List.countP_cons, hk, hq, ih']

theorem find?_bump (f : Target → Target) (l : List Target)
    (k2 : TargetKind) (tid2 : Nat)
    (hf : ∀ u, (f u).kind = u.kind ∧ (f u).id = u.id) :
    (l.map f).find? (fun t => t.kind == k2 && t.id == tid2) =
      (l.find? (fun t => t.kind == k2 && t.id == tid2)).map f := by
  rw [List.find?_map]
  have hp : ((fun t : Target => t.kind == k2 && t.id == tid2) ∘ f) =
      (fun t : Target => t.kind == k2 && t.id == tid2) := by
    funext u
    simp [Function.comp, (hf u).1, (hf u).2]
  rw [hp]

theorem like_notFound {s : LedgerState} {a : Nat} {k : TargetKind} {tid : Nat}
    {now : Int} (hf : findTarget s k tid = none) :
    like s a k tid now = (.notFound, s) := by
  unfold like
  rw [hf]

theorem like_already {s : LedgerState} {a : Nat} {k : TargetKind} {tid : Nat}
    {now : Int} {t : Target} (hf : findTarget s k tid = some t)
    (hl : liveLike s a k tid = true) :
    like s a k tid now = (.alreadyLiked, s) := by
  unfold like
  rw [hf]
  simp [hl]

theorem like_success {s : LedgerState} {a : Nat} {k : TargetKind} {tid : Nat}
    {now : Int} {t : Target} (hf : findTarget s k tid = some t)
    (hl : liveLike s a k tid = false) :
    like s a k tid now = (.ok (t.likeCount + 1),
      { targets := s.targets.map (bumpLike k tid),
        events := ⟨a, k, tid, now⟩ :: s.events }) := by
  unfold like
  rw [hf]
  simp [hl]

theorem unlike_success {s : LedgerState} {a : Nat} {k : TargetKind} {tid : Nat}
    {t : Target} (hf : findTarget s k tid = some t)
    (hl : liveLike s a k tid = true) :
    unlike s a k tid = (.ok (t.likeCount - 1),
      { targets := s.targets.map (bumpUnlike k tid),
        events := s.events.filter (fun e =>
          !(e.actorId == a && e.targetKind == k && e.targetId == tid)) }) := by
  unfold unlike
  rw [hf]
  simp [hl]

/-- C3: with an existing target, like fails with AlreadyLiked exactly when a
live event by the same actor on the same target already exists; on that
failure the state (ledger and counters) is unchanged; otherwise exactly one
LikeEvent is inserted and the cached counter of exactly that target
increases by 1, all within the single atomic transition. -/
theorem C3_like_contract (s : LedgerState) (a : Nat) (k : TargetKind) (tid : Nat)
    (now : Int) (t : Target) (hex : findTarget s k tid = some t) :
    ((like s a k tid now).1 = LikeResult.alreadyLiked ↔ liveLike s a k tid = true) ∧
    (liveLike s a k tid = true → (like s a k tid now).2 = s) ∧
    (liveLike s a k tid = false →
      (like s a k tid now).1 = LikeResult.ok (t.likeCount + 1) ∧
      (like s a k tid now).2.events = ⟨a, k, tid, now⟩ :: s.events ∧
      counterOf (like s a k tid now).2 k tid = some (t.likeCount + 1) ∧
      (∀ (k2 : TargetKind) (tid2 : Nat), ¬(k2 = k ∧ tid2 = tid) →
        counterOf (like s a k tid now).2 k2 tid2 = counterOf s k2 tid2)) := by
  have hbk : ∀ u, (bumpLike k tid u).kind = u.kind ∧ (bumpLike k tid u).id = u.id :=
    fun u => ⟨bumpLike_kind k tid u, bumpLike_id k tid u⟩
  refine ⟨⟨?_, ?_⟩, ?_, ?_⟩
  · intro h1
    cases hb : liveLike s a k tid
    · rw [like_success hex hb] at h1
      cases h1
    · rfl
  · intro hb
    rw [like_already hex hb]
  · intro hb
    rw [like_already hex hb]
  · intro hb
    rw [like_success hex hb]
    have hex' : s.targets.find? (fun u => u.kind == k && u.id == tid) = some t := hex
    have hpt := List.find?_some hex'
    simp only [Bool.and_eq_true, beq_iff_eq] at hpt
    refine ⟨rfl, rfl, ?_, ?_⟩
    · show ((s.targets.map (bumpLike k tid)).find?
        (fun u => u.kind == k && u.id == tid)).map (fun u => u.likeCount) =
          some (t.likeCount + 1)
      rw [find?_bump (bumpLike k tid) s.targets k tid hbk, hex']
      simp [bumpLike_count_match hpt]
    · intro k2 tid2 hne
      show ((s.targets.map (bumpLike k tid)).find?
        (fun u => u.kind == k2 && u.id == tid2)).map (fun u => u.likeCount) =
          (s.targets.find? (fun u => u.kind == k2 && u.id == tid2)).map
            (fun u => u.likeCount)
      rw [find?_bump (bumpLike k tid) s.targets k2 tid2 hbk]
      cases hf2 : s.targets.find? (fun u => u.kind == k2 && u.id == tid2) with
      | none => rfl
      | some t2 =>
        have hp2 := List.find?_some hf2
        simp only [Bool.and_eq_true, beq_iff_eq] at hp2
        have hnm : ¬(t2.kind = k ∧ t2.id = tid) := fun hcon =>
          hne ⟨hp2.1.symm.trans hcon.1, hp2.2.symm.trans hcon.2⟩
        simp [bumpLike_count_nomatch hnm]

theorem C3_like_contract_witness :
    (like (initLedger [(TargetKind.post, 1)]) 2 TargetKind.post 1 5).1 =
      LikeResult.ok 1 ∧
    (like (initLedger [(TargetKind.post, 1)]) 2 TargetKind.post 1 5).2.events =
      [⟨2, TargetKind.post, 1, 5⟩] ∧
    counterOf (like (initLedger [(TargetKind.post, 1)]) 2 TargetKind.post 1 5).2
      TargetKind.post 1 = some 1 := by
  have h := C3_like_contract (initLedger [(TargetKind.post, 1)]) 2 TargetKind.post 1
    5 ⟨TargetKind.post, 1, 0⟩ rfl
  have h3 := h.2.2 rfl
  exact ⟨h3.1, h3.2.1, h3.2.2.1⟩

/-- Both ledger invariants (unique live events, exact counters) hold in every
reachable state. -/
theorem ledger_invariants (s : LedgerState) (h : LedgerReachable s) :
    UniqueLive s ∧ CounterInv s := by
  induction h with
  | init ts =>
    constructor
    · exact List.Pairwise.nil
    · intro t ht
      obtain ⟨p, hp, rfl⟩ := List.mem_map.mp ht
      rfl
  | stepLike s a k tid now hr ih =>
    obtain ⟨huv, hcv⟩ := ih
    cases hf : findTarget s k tid with
    | none =>
      rw [like_notFound hf]
      exact ⟨huv, hcv⟩
    | some t =>
      cases hb : liveLike s a k tid with
      | true =>
        rw [like_already hf hb]
        exact ⟨huv, hcv⟩
      | false =>
        rw [like_success hf hb]
        constructor
        · show List.Pairwise _ ((⟨a, k, tid, now⟩ : LikeEvent) :: s.events)
          refine List.Pairwise.cons ?_ huv
          intro f hfmem hcon
          exact (liveLike_false_iff.mp hb) f hfmem
            ⟨hcon.1.symm, hcon.2.1.symm, hcon.2.2.symm⟩
        · intro t' ht'
          obtain ⟨u, hmem, rfl⟩ := List.mem_map.mp ht'
          have hcu := hcv u hmem
          unfold eventsFor at hcu ⊢
          rw [bumpLike_kind, bumpLike_id]
          by_cases hm : u.kind = k ∧ u.id = tid
          · rw [bumpLike_count_match hm]
            show u.likeCount + 1 = (List.filter _
              ((⟨a, k, tid, now⟩ : LikeEvent) :: s.events)).length
            rw [List.filter_cons]
            simp only [hm.1, hm.2] at hcu ⊢
            simp [hcu]
          · rw [bumpLike_count_nomatch hm]
            show u.likeCount = (List.filter _
              ((⟨a, k, tid, now⟩ : LikeEvent) :: s.events)).length
            rw [List.filter_cons]
            have hcond : (((⟨a, k, tid, now⟩ : LikeEvent).targetKind == u.kind) &&
                ((⟨a, k, tid, now⟩ : LikeEvent).targetId == u.id)) = false := by
              cases hb2 : (((⟨a, k, tid, now⟩ : LikeEvent).targetKind == u.kind) &&
                  ((⟨a, k, tid, now⟩ : LikeEvent).targetId == u.id))
              · rfl
              · simp only [Bool.and_eq_true, beq_iff_eq] at hb2
                exact absurd ⟨hb2.1.symm, hb2.2.symm⟩ hm
            simp [hcond, hcu]
  | stepUnlike s a k tid hr ih =>
    obtain ⟨huv, hcv⟩ := ih
    cases hf : findTarget s k tid with
    | none =>
      have he : (unlike s a k tid).2 = s := by
        unfold unlike
        rw [hf]
      rw [he]
      exact ⟨huv, hcv⟩
    | some t =>
      cases hb : liveLike s a k tid with
      | false =>
        have he : (unlike s a k tid).2 = s := by
          unfold unlike
          rw [hf]
          simp [hb]
        rw [he]
        exact ⟨huv, hcv⟩
      | true =>
        have he2 : (unlike s a k tid).2 =
            { targets := s.targets.map (bumpUnlike k tid),
              events := s.events.filter (fun e =>
                !(e.actorId == a && e.targetKind == k && e.targetId == tid)) } :=
          congrArg Prod.snd (unlike_success hf hb)
        rw [he2]
        have hkey1 : (s.events.countP (fun e =>
            e.actorId == a && e.targetKind == k && e.targetId == tid)) = 1 := by
          refine countP_eq_one_of_pairwise _ _ ?_ hb
          refine huv.imp ?_
          intro e f hne hcon
          simp only [Bool.and_eq_true, beq_iff_eq] at hcon
          exact hne ⟨hcon.1.1.1.trans hcon.2.1.1.symm,
            hcon.1.1.2.trans hcon.2.1.2.symm, hcon.1.2.trans hcon.2.2.symm⟩
        constructor
        · show List.Pairwise _ (s.events.filter _)
          exact huv.filter _
        · intro t' ht'
          obtain ⟨u, hmem, rfl⟩ := List.mem_map.mp ht'
          have hcu := hcv u hmem
          unfold eventsFor at hcu ⊢
          rw [bumpUnlike_kind, bumpUnlike_id]
          by_cases hm : u.kind = k ∧ u.id = tid
          · rw [bumpUnlike_count_match hm]
            show u.likeCount - 1 = ((s.events.filter (fun e =>
                !(e.actorId == a && e.targetKind == k && e.targetId == tid))).filter
              (fun e => e.targetKind == u.kind && e.targetId == u.id)).length
            have hsplit := length_filter_split
              (fun e => e.targetKind == u.kind && e.targetId == u.id)
              (fun e => e.actorId == a && e.targetKind == k && e.targetId == tid)
              s.events ?_
            · rw [hcu]
              omega
            · intro e hemem hke
              simp only [Bool.and_eq_true, beq_iff_eq] at hke
              simp [hke.1.2, hke.2, hm.1, hm.2]
          · rw [bumpUnlike_count_nomatch hm]
            show u.likeCount = ((s.events.filter (fun e =>
                !(e.actorId == a && e.targetKind == k && e.targetId == tid))).filter
              (fun e => e.targetKind == u.kind && e.targetId == u.id)).length
            have hcancel := length_filter_cancel
              (fun e => e.targetKind == u.kind && e.targetId == u.id)
              (fun e => !(e.actorId == a && e.targetKind == k && e.targetId == tid))
              s.events ?_
            · rw [hcu, hcancel]
            · intro e hemem hqe
              simp only [Bool.and_eq_true, beq_iff_eq] at hqe
              cases hke : (e.actorId == a && e.targetKind == k && e.targetId == tid)
              · simp [hke]
              · simp only [Bool.and_eq_true, beq_iff_eq] at hke
                exact absurd ⟨hqe.1.symm.trans hke.1.2, hqe.2.symm.trans hke.2⟩ hm

/-- C4: after any finite sequence of like and unlike operations run to
quiescence, the cached likeCount of every stored target equals the number of
live LikeEvents for that target. -/
theorem C4_counter_exactness (s : LedgerState) (h : LedgerReachable s) :
    ∀ t ∈ s.targets, t.likeCount = (eventsFor s t.kind t.id).length :=
  (ledger_invariants s h).2

theorem C4_counter_exactness_witness :
    (⟨TargetKind.post, 1, 1⟩ : Target).likeCount =
      (eventsFor (like (initLedger [(TargetKind.post, 1)]) 2 TargetKind.post 1 5).2
        TargetKind.post 1).length := by
  have hr : LedgerReachable
      (like (initLedger [(TargetKind.post, 1)]) 2 TargetKind.post 1 5).2 :=
    LedgerReachable.stepLike _ 2 TargetKind.post 1 5 (LedgerReachable.init _)
  exact C4_counter_exactness _ hr ⟨TargetKind.post, 1, 1⟩ (by decide)

/-! ### Interval arithmetic lemmas -/

theorem shiftVal_lt_iff (th d x y : Nat) :
    shiftVal th d x < shiftVal th d y ↔ x < y := by
  unfold shiftVal
  split <;> split <;> omega

theorem shiftVal_inj (th d : Nat) {x y : Nat} (h : shiftVal th d x = shiftVal th d y) :
    x = y := by
  unfold shiftVal at h
  by_cases h1 : th ≤ x <;> by_cases h2 : th ≤ y <;>
    simp [h1, h2] at h <;> omega

theorem shiftVal_two_range {ip x n : Nat} (hip1 : 1 ≤ ip) (hip2 : ip ≤ 2 * n)
    (hx : 1 ≤ x ∧ x ≤ 2 * n) :
    1 ≤ shiftVal ip 2 x ∧ shiftVal ip 2 x ≤ 2 * n + 2 ∧
      shiftVal ip 2 x ≠ ip ∧ shiftVal ip 2 x ≠ ip + 1 := by
  unfold shiftVal
  split <;> omega

theorem shiftVal_two_surj {ip k n : Nat} (hip1 : 1 ≤ ip) (hip2 : ip ≤ 2 * n)
    (hk : 1 ≤ k ∧ k ≤ 2 * n + 2 ∧ k ≠ ip ∧ k ≠ ip + 1) :
    ∃ x, (1 ≤ x ∧ x ≤ 2 * n) ∧ shiftVal ip 2 x = k := by
  by_cases h : k < ip
  · exact ⟨k, by omega, by unfold shiftVal; split <;> omega⟩
  · exact ⟨k - 2, by omega, by unfold shiftVal; split <;> omega⟩

theorem boundaries_append (t1 t2 : List CommentNode) :
    boundaries (t1 ++ t2) = boundaries t1 ++ boundaries t2 := by
  unfold boundaries
  rw [List.flatMap_append]

theorem boundaries_cons (x : CommentNode) (t : List CommentNode) :
    boundaries (x :: t) = x.left :: x.right :: boundaries t := rfl

theorem mem_boundaries {t : List CommentNode} {k : Nat} :
    k ∈ boundaries t ↔ ∃ n ∈ t, n.left = k ∨ n.right = k := by
  unfold boundaries
  simp [List.mem_flatMap]
  constructor
  · rintro ⟨n, hn, h | h⟩
    exacts [⟨n, hn, Or.inl h.symm⟩, ⟨n, hn, Or.inr h.symm⟩]
  · rintro ⟨n, hn, h | h⟩
    exacts [⟨n, hn, Or.inl h.symm⟩, ⟨n, hn, Or.inr h.symm⟩]

theorem left_mem_boundaries {t : List CommentNode} {n : CommentNode} (h : n ∈ t) :
    n.left ∈ boundaries t := mem_boundaries.mpr ⟨n, h, Or.inl rfl⟩

theorem right_mem_boundaries {t : List CommentNode} {n : CommentNode} (h : n ∈ t) :
    n.right ∈ boundaries t := mem_boundaries.mpr ⟨n, h, Or.inr rfl⟩

theorem boundaries_shift (t : List CommentNode) (th d : Nat) :
    boundaries (shiftIntervals t th d) = (boundaries t).map (shiftVal th d) := by
  induction t with
  | nil => rfl
  | cons x xs ih =>
    unfold shiftIntervals at ih ⊢
    rw [List.map_cons, boundaries_cons, boundaries_cons, ih]
    rfl

theorem bounds_distinct {t : List CommentNode} (h : (boundaries t).Nodup) :
    ∀ m ∈ t, ∀ n ∈ t, m ≠ n →
      m.left ≠ n.left ∧ m.left ≠ n.right ∧ m.right ≠ n.left ∧ m.right ≠ n.right := by
  induction t with
  | nil => intro m hm; cases hm
  | cons x xs ih =>
    rw [boundaries_cons] at h
    have h1 : x.left ∉ x.right :: boundaries xs := (List.nodup_cons.mp h).1
    have h2 : x.right ∉ boundaries xs :=
      (List.nodup_cons.mp (List.nodup_cons.mp h).2).1
    have h3 : (boundaries xs).Nodup :=
      (List.nodup_cons.mp (List.nodup_cons.mp h).2).2
    simp only [List.mem_cons, not_or] at h1
    intro m hm n hn hne
    rcases List.mem_cons.mp hm with rfl | hm' <;>
      rcases List.mem_cons.mp hn with rfl | hn'
    · exact absurd rfl hne
    · refine ⟨?_, ?_, ?_, ?_⟩ <;> intro hEq
      · exact h1.2 (hEq ▸ left_mem_boundaries hn')
      · exact h1.2 (hEq ▸ right_mem_boundaries hn')
      · exact h2 (hEq ▸ left_mem_boundaries hn')
      · exact h2 (hEq ▸ right_mem_boundaries hn')
    · refine ⟨?_, ?_, ?_, ?_⟩ <;> intro hEq
      · exact h1.2 (hEq ▸ left_mem_boundaries hm')
      · exact h2 (hEq ▸ left_mem_boundaries hm')
      · exact h1.2 (hEq ▸ right_mem_boundaries hm')
      · exact h2 (hEq ▸ right_mem_boundaries hm')
    · exact ih h3 m hm' n hn' hne

theorem maxRight_ge {t : List CommentNode} : ∀ n ∈ t, n.right ≤ maxRight t := by
  induction t with
  | nil => intro n hn; cases hn
  | cons x xs ih =>
    intro n hn
    rcases List.mem_cons.mp hn with rfl | hn'
    · exact le_max_left _ _
    · exact le_trans (ih n hn') (le_max_right _ _)

theorem maxRight_cases (t : List CommentNode) :
    maxRight t = 0 ∨ ∃ n ∈ t, maxRight t = n.right := by
  induction t with
  | nil => exact Or.inl rfl
  | cons x xs ih =>
    have hfold : maxRight (x :: xs) = max x.right (maxRight xs) := rfl
    rcases Nat.le_total (maxRight xs) x.right with h | h
    · exact Or.inr ⟨x, List.mem_cons_self _ _, by rw [hfold, max_eq_left h]⟩
    · rcases ih with h0 | ⟨n, hn, hmr⟩
      · exact Or.inl (by rw [hfold]; omega)
      · exact Or.inr ⟨n, List.mem_cons_of_mem x hn, by rw [hfold, max_eq_right h, hmr]⟩

theorem id_unique {t : List CommentNode} (h : (t.map (fun n => n.id)).Nodup)
    {m n : CommentNode} (hm : m ∈ t) (hn : n ∈ t) (hid : m.id = n.id) : m = n :=
  List.inj_on_of_nodup_map h hm hn hid

theorem bound_le {t : List CommentNode} (hWF : WF t) {n : CommentNode}
    (hn : n ∈ t) : 1 ≤ n.left ∧ n.right ≤ 2 * t.length := by
  have h1 := (hWF.bMem n.left).mp (left_mem_boundaries hn)
  have h2 := (hWF.bMem n.right).mp (right_mem_boundaries hn)
  exact ⟨h1.1, h2.2⟩

theorem maxRight_eq {t : List CommentNode} (hWF : WF t) :
    maxRight t = 2 * t.length := by
  cases t with
  | nil => rfl
  | cons x xs =>
    have hlen : 1 ≤ (x :: xs).length := by simp
    have h2N : (2 * (x :: xs).length) ∈ boundaries (x :: xs) :=
      (hWF.bMem _).mpr (by omega)
    rcases mem_boundaries.mp h2N with ⟨n, hn, hl | hr⟩
    · exfalso
      have hlt := hWF.lw n hn
      have := (bound_le hWF hn).2
      omega
    · have hub : ∀ m ∈ (x :: xs), m.right ≤ 2 * (x :: xs).length :=
        fun m hm => (bound_le hWF hm).2
      have hge := maxRight_ge n hn
      rcases maxRight_cases (x :: xs) with h0 | ⟨m, hm, hmr⟩
      · have := hWF.lw n hn
        omega
      · have := hub m hm
        omega

theorem WF_nil : WF [] := by
  refine ⟨List.Pairwise.nil, List.Pairwise.nil, ?_, ?_, ?_, ?_, ?_, ?_,
    List.Pairwise.nil⟩
  · intro k
    constructor
    · intro hk
      cases hk
    · intro hk
      simp at hk
      omega
  · intro n hn
    cases hn
  · intro m hm
    cases hm
  · intro n hn
    cases hn
  · intro n hn
    cases hn
  · intro n hn
    cases hn

theorem wf_append_top {t : List CommentNode} (hWF : WF t) {nn : CommentNode}
    (hid : ∀ m ∈ t, m.id ≠ nn.id) (hpid : nn.parentId = none)
    (hl : nn.left = 2 * t.length + 1) (hr : nn.right = 2 * t.length + 2) :
    WF (t ++ [nn]) := by
  have hub : ∀ m ∈ t, m.right ≤ 2 * t.length ∧ 1 ≤ m.left ∧
      m.left ≤ 2 * t.length := by
    intro m hm
    have h1 := bound_le hWF hm
    have h2 := hWF.lw m hm
    omega
  have hbeq : boundaries (t ++ [nn]) = boundaries t ++ [nn.left, nn.right] := by
    rw [boundaries_append]
    rfl
  constructor
  · rw [List.map_append, List.nodup_append]
    refine ⟨hWF.nodupIds, by simp, ?_⟩
    intro a ha hb
    simp only [List.map_cons, List.map_nil, List.mem_singleton] at hb
    rcases List.mem_map.mp ha with ⟨m, hm, rfl⟩
    exact hid m hm hb
  · rw [hbeq, List.nodup_append]
    refine ⟨hWF.bNodup, by simp; omega, ?_⟩
    intro a ha hb
    have := ((hWF.bMem a).mp ha).2
    simp only [List.mem_cons, List.mem_singleton, List.not_mem_nil, or_false] at hb
    omega
  · intro k
    rw [hbeq]
    simp only [List.mem_append, List.mem_cons, List.mem_singleton,
      List.not_mem_nil, or_false, List.length_append, List.length_cons,
      List.length_nil]
    rw [hWF.bMem k]
    omega
  · intro n hn
    rcases List.mem_append.mp hn with hn' | hn'
    · exact hWF.lw n hn'
    · have hn2 : n = nn := by simpa using hn'
      subst hn2
      omega
  · intro m hm n hn hne
    rcases List.mem_append.mp hm with hm' | hm' <;>
      rcases List.mem_append.mp hn with hn' | hn'
    · exact hWF.laminar m hm' n hn' hne
    · have hn2 : n = nn := by simpa using hn'
      subst hn2
      have := (hub m hm').1
      exact Or.inl (by omega)
    · have hm2 : m = nn := by simpa using hm'
      subst hm2
      have := (hub n hn').1
      exact Or.inr (Or.inl (by omega))
    · have hm2 : m = nn := by simpa using hm'
      have hn2 : n = nn := by simpa using hn'
      exact absurd (hm2.trans hn2.symm) hne
  · intro n hn p hp
    rcases List.mem_append.mp hn with hn' | hn'
    · obtain ⟨P, hP, hPid, hc⟩ := hWF.parentCont n hn' p hp
      exact ⟨P, List.mem_append_left _ hP, hPid, hc⟩
    · have hn2 : n = nn := by simpa using hn'
      subst hn2
      rw [hpid] at hp
      cases hp
  · intro n hn hnone q hq hcq
    rcases List.mem_append.mp hn with hn' | hn' <;>
      rcases List.mem_append.mp hq with hq' | hq'
    · exact hWF.rootNoCont n hn' hnone q hq' hcq
    · have hq2 : q = nn := by simpa using hq'
      subst hq2
      have h1 := (hub n hn').2.2
      have h2 := hcq.1
      omega
    · have hn2 : n = nn := by simpa using hn'
      subst hn2
      have h1 := (hub q hq').1
      have h2 := hcq.2
      omega
    · have hq2 : q = nn := by simpa using hq'
      have hn2 : n = nn := by simpa using hn'
      subst hq2
      subst hn2
      exact absurd hcq.1 (lt_irrefl _)
  · intro n hn p hp Pq hPq hPqid q hq hcq
    rcases List.mem_append.mp hn with hn' | hn'
    · rcases List.mem_append.mp hPq with hPq' | hPq'
      · rcases List.mem_append.mp hq with hq' | hq'
        · exact hWF.parentMin n hn' p hp Pq hPq' hPqid q hq' hcq
        · have hq2 : q = nn := by simpa using hq'
          subst hq2
          have h1 := (hub n hn').2.2
          have h2 := hcq.1
          omega
      · have hPq2 : Pq = nn := by simpa using hPq'
        obtain ⟨P0, hP0, hP0id, _⟩ := hWF.parentCont n hn' p hp
        exact absurd (hP0id.trans (hPq2 ▸ hPqid).symm) (hid P0 hP0)
    · have hn2 : n = nn := by simpa using hn'
      subst hn2
      rw [hpid] at hp
      cases hp
  · rw [List.pairwise_append]
    refine ⟨hWF.sibOrder, List.pairwise_singleton _ _, ?_⟩
    intro a ha b hb hpar
    have hb2 : b = nn := by simpa using hb
    subst hb2
    have := (hub a ha).1
    omega

theorem shiftVal_of_lt {ip d v : Nat} (h : v < ip) : shiftVal ip d v = v := by
  unfold shiftVal
  rw [if_neg (by omega)]

theorem shiftVal_of_ge {ip d v : Nat} (h : ip ≤ v) : shiftVal ip d v = v + d := by
  unfold shiftVal
  rw [if_pos h]

theorem mem_shiftIntervals {t : List CommentNode} {th d : Nat} {x : CommentNode} :
    x ∈ shiftIntervals t th d ↔ ∃ y ∈ t,
      x = { y with left := shiftVal th d y.left,
                   right := shiftVal th d y.right } := by
  unfold shiftIntervals
  rw [List.mem_map]
  constructor
  · rintro ⟨y, hy, rfl⟩
    exact ⟨y, hy, rfl⟩
  · rintro ⟨y, hy, rfl⟩
    exact ⟨y, hy, rfl⟩

theorem contains_shift_iff {th d : Nat} {y z : CommentNode} :
    contains ({ y with left := shiftVal th d y.left,
                       right := shiftVal th d y.right } : CommentNode)
             ({ z with left := shiftVal th d z.left,
                       right := shiftVal th d z.right } : CommentNode) ↔
      contains y z := by
  unfold contains
  rw [shiftVal_lt_iff, shiftVal_lt_iff]

theorem shiftIntervals_map_id (t : List CommentNode) (th d : Nat) :
    (shiftIntervals t th d).map (fun n => n.id) = t.map (fun n => n.id) := by
  unfold shiftIntervals
  rw [List.map_map]
  rfl

theorem wf_append_child {t : List CommentNode} (hWF : WF t) {P : CommentNode}
    (hP : P ∈ t) {nn : CommentNode}
    (hid : ∀ m ∈ t, m.id ≠ nn.id) (hpid : nn.parentId = some P.id)
    (hl : nn.left = P.right) (hr : nn.right = P.right + 1) :
    WF (shiftIntervals t P.right 2 ++ [nn]) := by
  have hip1 : 1 ≤ P.right := ((hWF.bMem P.right).mp (right_mem_boundaries hP)).1
  have hip2 : P.right ≤ 2 * t.length :=
    ((hWF.bMem P.right).mp (right_mem_boundaries hP)).2
  have hbeq : boundaries (shiftIntervals t P.right 2 ++ [nn]) =
      (boundaries t).map (shiftVal P.right 2) ++ [nn.left, nn.right] := by
    rw [boundaries_append, boundaries_shift]
    rfl
  have hinj : Function.Injective (shiftVal P.right 2) := fun a b => shiftVal_inj _ _
  have hnotin : ∀ k ∈ (boundaries t).map (shiftVal P.right 2),
      k ≠ P.right ∧ k ≠ P.right + 1 := by
    intro k hk
    rcases List.mem_map.mp hk with ⟨x, hx, rfl⟩
    have hxb := (hWF.bMem x).mp hx
    have := shiftVal_two_range hip1 hip2 hxb
    omega
  constructor
  · rw [List.map_append, List.nodup_append, shiftIntervals_map_id]
    refine ⟨hWF.nodupIds, by simp, ?_⟩
    intro a ha hb
    simp only [List.map_cons, List.map_nil, List.mem_singleton] at hb
    rcases List.mem_map.mp ha with ⟨m, hm, rfl⟩
    exact hid m hm hb
  · rw [hbeq, List.nodup_append]
    refine ⟨hWF.bNodup.map hinj, by simp [hl, hr], ?_⟩
    intro a ha hb
    simp only [List.mem_cons, List.mem_singleton, List.not_mem_nil,
      or_false, hl, hr] at hb
    have := hnotin a ha
    omega
  · intro k
    rw [hbeq]
    simp only [List.mem_append, List.mem_cons, List.mem_singleton,
      List.not_mem_nil, or_false, List.length_append, List.length_cons,
      List.length_nil, List.mem_map, hl, hr]
    unfold shiftIntervals
    rw [List.length_map]
    constructor
    · rintro (⟨x, hx, rfl⟩ | hk | hk)
      · have hxb := (hWF.bMem x).mp hx
        have := shiftVal_two_range hip1 hip2 hxb
        omega
      · omega
      · omega
    · intro hk
      by_cases h1 : k = P.right
      · exact Or.inr (Or.inl h1)
      · by_cases h2 : k = P.right + 1
        · exact Or.inr (Or.inr h2)
        · obtain ⟨x, hx, hsx⟩ := shiftVal_two_surj hip1 hip2 ⟨hk.1, by omega, h1, h2⟩
          exact Or.inl ⟨x, (hWF.bMem x).mpr hx, hsx⟩
  · intro n hn
    rcases List.mem_append.mp hn with hn' | hn'
    · obtain ⟨y, hy, rfl⟩ := mem_shiftIntervals.mp hn'
      exact (shiftVal_lt_iff _ _ _ _).mpr (hWF.lw y hy)
    · have hn2 : n = nn := by simpa using hn'
      subst hn2
      omega
  · intro m hm n hn hne
    rcases List.mem_append.mp hm with hm' | hm' <;>
      rcases List.mem_append.mp hn with hn' | hn'
    · obtain ⟨y, hy, rfl⟩ := mem_shiftIntervals.mp hm'
      obtain ⟨z, hz, rfl⟩ := mem_shiftIntervals.mp hn'
      have hyz : y ≠ z := fun hEq => hne (by rw [hEq])
      rcases hWF.laminar y hy z hz hyz with h | h | h | h
      · exact Or.inl (by dsimp; exact (shiftVal_lt_iff _ _ _ _).mpr h)
      · exact Or.inr (Or.inl (by dsimp; exact (shiftVal_lt_iff _ _ _ _).mpr h))
      · exact Or.inr (Or.inr (Or.inl (contains_shift_iff.mpr h)))
      · exact Or.inr (Or.inr (Or.inr (contains_shift_iff.mpr h)))
    · have hn2 : n = nn := by simpa using hn'
      subst hn2
      obtain ⟨y, hy, rfl⟩ := mem_shiftIntervals.mp hm'
      have hlwy := hWF.lw y hy
      rcases Nat.lt_or_ge y.right P.right with h1 | h1
      · refine Or.inl ?_
        dsimp
        rw [shiftVal_of_lt h1, hl]
        omega
      · rcases Nat.lt_or_ge y.left P.right with h2 | h2
        · refine Or.inr (Or.inr (Or.inl ?_))
          unfold contains
          dsimp
          rw [shiftVal_of_lt h2, shiftVal_of_ge h1, hl, hr]
          omega
        · refine Or.inr (Or.inl ?_)
          dsimp
          rw [shiftVal_of_ge h2, hr]
          omega
    · have hm2 : m = nn := by simpa using hm'
      subst hm2
      obtain ⟨y, hy, rfl⟩ := mem_shiftIntervals.mp hn'
      have hlwy := hWF.lw y hy
      rcases Nat.lt_or_ge y.right P.right with h1 | h1
      · refine Or.inr (Or.inl ?_)
        dsimp
        rw [shiftVal_of_lt h1, hl]
        omega
      · rcases Nat.lt_or_ge y.left P.right with h2 | h2
        · refine Or.inr (Or.inr (Or.inr ?_))
          unfold contains
          dsimp
          rw [shiftVal_of_lt h2, shiftVal_of_ge h1, hl, hr]
          omega
        · refine Or.inl ?_
          dsimp
          rw [shiftVal_of_ge h2, hr]
          omega
    · have hm2 : m = nn := by simpa using hm'
      have hn2 : n = nn := by simpa using hn'
      exact absurd (hm2.trans hn2.symm) hne
  · intro n hn p hp
    rcases List.mem_append.mp hn with hn' | hn'
    · obtain ⟨y, hy, rfl⟩ := mem_shiftIntervals.mp hn'
      have hyp : y.parentId = some p := hp
      obtain ⟨P0, hP0, hP0id, hc⟩ := hWF.parentCont y hy p hyp
      refine ⟨{ P0 with left := shiftVal P.right 2 P0.left,
                        right := shiftVal P.right 2 P0.right },
        List.mem_append_left _ (mem_shiftIntervals.mpr ⟨P0, hP0, rfl⟩),
        hP0id, contains_shift_iff.mpr hc⟩
    · have hn2 : n = nn := by simpa using hn'
      subst hn2
      rw [hpid] at hp
      have hpP : p = P.id := by injection hp.symm
      subst hpP
      refine ⟨{ P with left := shiftVal P.right 2 P.left,
                       right := shiftVal P.right 2 P.right },
        List.mem_append_left _ (mem_shiftIntervals.mpr ⟨P, hP, rfl⟩), rfl, ?_⟩
      unfold contains
      dsimp
      have hlwP := hWF.lw P hP
      rw [shiftVal_of_lt hlwP, shiftVal_of_ge (le_refl _), hl, hr]
      omega
  · intro n hn hnone q hq hcq
    rcases List.mem_append.mp hn with hn' | hn'
    · obtain ⟨y, hy, rfl⟩ := mem_shiftIntervals.mp hn'
      have hyn : y.parentId = none := hnone
      rcases List.mem_append.mp hq with hq' | hq'
      · obtain ⟨z, hz, rfl⟩ := mem_shiftIntervals.mp hq'
        exact hWF.rootNoCont y hy hyn z hz (contains_shift_iff.mp hcq)
      · have hq2 : q = nn := by simpa using hq'
        rw [hq2] at hcq
        unfold contains at hcq
        dsimp at hcq
        have hlwy := (shiftVal_lt_iff P.right 2 y.left y.right).mpr (hWF.lw y hy)
        rw [hl, hr] at hcq
        omega
    · have hn2 : n = nn := by simpa using hn'
      rw [hn2, hpid] at hnone
      cases hnone
  · intro n hn p hp Pq hPq hPqid q hq hcq
    rcases List.mem_append.mp hn with hn' | hn'
    · obtain ⟨y, hy, rfl⟩ := mem_shiftIntervals.mp hn'
      have hyp : y.parentId = some p := hp
      rcases List.mem_append.mp hq with hq' | hq'
      swap
      · exfalso
        have hq2 : q = nn := by simpa using hq'
        rw [hq2] at hcq
        unfold contains at hcq
        dsimp at hcq
        have hlwy := (shiftVal_lt_iff P.right 2 y.left y.right).mpr (hWF.lw y hy)
        rw [hl, hr] at hcq
        omega
      obtain ⟨z, hz, rfl⟩ := mem_shiftIntervals.mp hq'
      rcases List.mem_append.mp hPq with hPq' | hPq'
      swap
      · exfalso
        have hPq2 : Pq = nn := by simpa using hPq'
        obtain ⟨P1, hP1, hP1id, _⟩ := hWF.parentCont y hy p hyp
        apply hid P1 hP1
        rw [hP1id, ← hPqid, hPq2]
      obtain ⟨Pz, hPz, rfl⟩ := mem_shiftIntervals.mp hPq'
      have hPzid : Pz.id = p := hPqid
      rcases hWF.parentMin y hy p hyp Pz hPz hPzid z hz (contains_shift_iff.mp hcq)
        with h | h
      · exact Or.inl (by rw [h])
      · exact Or.inr (contains_shift_iff.mpr h)
    · have hn2 : n = nn := by simpa using hn'
      rw [hn2] at hp hcq
      rw [hpid] at hp
      have hpP : p = P.id := by injection hp.symm
      rcases List.mem_append.mp hq with hq' | hq'
      swap
      · exfalso
        have hq2 : q = nn := by simpa using hq'
        rw [hq2] at hcq
        unfold contains at hcq
        exact absurd hcq.1 (lt_irrefl _)
      obtain ⟨z, hz, rfl⟩ := mem_shiftIntervals.mp hq'
      rcases List.mem_append.mp hPq with hPq' | hPq'
      swap
      · exfalso
        have hPq2 : Pq = nn := by simpa using hPq'
        apply hid P hP
        rw [← hpP, ← hPqid, hPq2]
      obtain ⟨Pz, hPz, rfl⟩ := mem_shiftIntervals.mp hPq'
      have hPzid : Pz.id = P.id := by
        rw [← hpP]
        exact hPqid
      have hPzP : Pz = P := id_unique hWF.nodupIds hPz hP hPzid
      unfold contains at hcq
      dsimp at hcq
      rw [hl, hr] at hcq
      have hz1 : z.left < P.right := by
        rcases Nat.lt_or_ge z.left P.right with h | h
        · exact h
        · exfalso
          rw [shiftVal_of_ge h] at hcq
          omega
      have hz2 : P.right ≤ z.right := by
        rcases Nat.lt_or_ge z.right P.right with h | h
        · exfalso
          rw [shiftVal_of_lt h] at hcq
          omega
        · exact h
      rcases Nat.eq_or_lt_of_le hz2 with hEq | hlt
      · have hzP : z = P := by
          by_contra hne2
          exact (bounds_distinct hWF.bNodup z hz P hP hne2).2.2.2 hEq.symm
        refine Or.inl ?_
        rw [hzP, hPzP]
      · have hzP : z ≠ P := by
          intro hEq2
          rw [hEq2] at hlt
          exact absurd hlt (lt_irrefl _)
        have hlwP := hWF.lw P hP
        rcases hWF.laminar z hz P hP hzP with h | h | h | h
        · omega
        · omega
        · refine Or.inr ?_
          rw [hPzP]
          exact contains_shift_iff.mpr h
        · exfalso
          unfold contains at h
          omega
  · rw [List.pairwise_append]
    refine ⟨?_, List.pairwise_singleton _ _, ?_⟩
    · unfold shiftIntervals
      rw [List.pairwise_map]
      refine hWF.sibOrder.imp ?_
      intro a b hab hpar
      dsimp at hpar ⊢
      exact (shiftVal_lt_iff _ _ _ _).mpr (hab hpar)
    · intro a ha b hb hpar
      have hb2 : b = nn := by simpa using hb
      subst hb2
      obtain ⟨y, hy, rfl⟩ := mem_shiftIntervals.mp ha
      have hypar : y.parentId = some P.id := by
        rw [← hpid]
        exact hpar
      obtain ⟨P1, hP1, hP1id, hc1⟩ := hWF.parentCont y hy P.id hypar
      have hP1P : P1 = P := id_unique hWF.nodupIds hP1 hP hP1id
      subst hP1P
      dsimp
      rw [shiftVal_of_lt hc1.2, hl]
      exact hc1.2

theorem wf_addComment {t t' : List CommentNode} {pid : Option Nat}
    {nid aid : Nat} {c : String} {ca : Nat} (hWF : WF t)
    (h : addComment t pid nid aid c ca = some t') : WF t' := by
  unfold addComment at h
  by_cases hany : (t.any (fun m => m.id == nid)) = true
  · rw [if_pos hany] at h
    cases h
  · rw [if_neg hany] at h
    have hfresh : ∀ m ∈ t, m.id ≠ nid := by
      intro m hm hEq
      exact hany (List.any_eq_true.mpr ⟨m, hm, by simp [hEq]⟩)
    cases pid with
    | none =>
      dsimp only at h
      injection h with h2
      subst h2
      refine wf_append_top hWF ?_ rfl ?_ ?_
      · exact hfresh
      · show maxRight t + 1 = 2 * t.length + 1
        rw [maxRight_eq hWF]
      · show maxRight t + 1 + 1 = 2 * t.length + 2
        rw [maxRight_eq hWF]
    | some p =>
      dsimp only at h
      cases hfind : t.find? (fun m => m.id == p) with
      | none =>
        rw [hfind] at h
        cases h
      | some P =>
        rw [hfind] at h
        dsimp only at h
        injection h with h2
        subst h2
        have hPmem := List.mem_of_find?_eq_some hfind
        have hPid : P.id = p := by
          have := List.find?_some hfind
          simpa using this
        refine wf_append_child hWF hPmem ?_ ?_ rfl rfl
        · exact hfresh
        · show some p = some P.id
          rw [hPid]

theorem wf_built {t : List CommentNode} (h : Built t) : WF t := by
  induction h with
  | nil => exact WF_nil
  | step pid nid aid c ca hb hadd ih => exact wf_addComment ih hadd

theorem length_filter_boundaries (p : Nat → Bool) (t : List CommentNode) :
    ((boundaries t).filter p).length =
      (t.map (fun m => ([m.left, m.right].filter p).length)).sum := by
  induction t with
  | nil => rfl
  | cons x xs ih =>
    have hb : boundaries (x :: xs) = [x.left, x.right] ++ boundaries xs := rfl
    rw [hb, List.filter_append, List.length_append, ih]
    simp

theorem filter_pair_length (p : Nat → Bool) (a b : Nat) :
    ([a, b].filter p).length =
      (if p a then 1 else 0) + (if p b then 1 else 0) := by
  cases hpa : p a <;> cases hpb : p b <;> simp [List.filter, hpa, hpb]

theorem sum_count_two (t : List CommentNode) (Q : CommentNode → Prop)
    [DecidablePred Q] :
    (t.map (fun m => if Q m then 2 else 0)).sum =
      2 * t.countP (fun m => decide (Q m)) := by
  induction t with
  | nil => rfl
  | cons x xs ih =>
    simp only [List.map_cons, List.sum_cons, List.countP_cons, ih]
    by_cases hq : Q x <;> simp [hq] <;> omega

theorem count_inside {t : List CommentNode} (hWF : WF t) {n : CommentNode}
    (hn : n ∈ t) :
    n.right - n.left - 1 = 2 * t.countP (fun m => decide (contains n m)) := by
  have hbl := bound_le hWF hn
  have hlwn := hWF.lw n hn
  have hA1 : ((boundaries t).filter
      (fun k => decide (n.left < k ∧ k < n.right))).Nodup :=
    hWF.bNodup.filter _
  have hA3 : ((boundaries t).filter
      (fun k => decide (n.left < k ∧ k < n.right))).toFinset =
      Finset.Ioo n.left n.right := by
    ext k
    rw [List.mem_toFinset, List.mem_filter, Finset.mem_Ioo, hWF.bMem k]
    simp only [decide_eq_true_eq]
    omega
  have hA4 : ((boundaries t).filter
      (fun k => decide (n.left < k ∧ k < n.right))).length =
      n.right - n.left - 1 := by
    rw [← List.toFinset_card_of_nodup hA1, hA3, Nat.card_Ioo]
  have per : ∀ m ∈ t, ([m.left, m.right].filter
      (fun k => decide (n.left < k ∧ k < n.right))).length =
      if contains n m then 2 else 0 := by
    intro m hm
    rw [filter_pair_length]
    have hlwm := hWF.lw m hm
    by_cases hc : contains n m
    · have h1 : n.left < m.left ∧ m.left < n.right := by
        unfold contains at hc
        omega
      have h2 : n.left < m.right ∧ m.right < n.right := by
        unfold contains at hc
        omega
      simp [h1, h2, hc]
    · have hz : ¬(n.left < m.left ∧ m.left < n.right) ∧
          ¬(n.left < m.right ∧ m.right < n.right) := by
        by_cases hmn : m = n
        · subst hmn
          omega
        · rcases hWF.laminar m hm n hn hmn with h | h | h | h
          · omega
          · omega
          · unfold contains at h
            omega
          · exact absurd h hc
      simp [hz.1, hz.2, hc]
  calc n.right - n.left - 1
      = ((boundaries t).filter
          (fun k => decide (n.left < k ∧ k < n.right))).length := hA4.symm
    _ = (t.map (fun m => ([m.left, m.right].filter
          (fun k => decide (n.left < k ∧ k < n.right))).length)).sum :=
        length_filter_boundaries _ t
    _ = (t.map (fun m => if contains n m then 2 else 0)).sum := by
        rw [List.map_congr_left per]
    _ = 2 * t.countP (fun m => decide (contains n m)) :=
        sum_count_two t (fun m => contains n m)

theorem child_contains {t : List CommentNode} (hWF : WF t) {m n : CommentNode}
    (hc : ChildOf t m n) : contains n m := by
  obtain ⟨hm, hn, hpid⟩ := hc
  obtain ⟨P, hP, hPid, hcont⟩ := hWF.parentCont m hm n.id hpid
  have hPn : P = n := id_unique hWF.nodupIds hP hn hPid
  rwa [hPn] at hcont

theorem descendant_imp_contains {t : List CommentNode} (hWF : WF t)
    {m n : CommentNode} (h : Descendant t m n) : contains n m := by
  induction h with
  | single hc => exact child_contains hWF hc
  | tail h1 hc ih =>
    have h2 := child_contains hWF hc
    exact ⟨lt_trans h2.1 ih.1, lt_trans ih.2 h2.2⟩

theorem contains_imp_descendant {t : List CommentNode} (hWF : WF t) :
    ∀ (L : Nat), ∀ m ∈ t, m.left ≤ L → ∀ n ∈ t, contains n m →
      Descendant t m n := by
  intro L
  induction L with
  | zero =>
    intro m hm hmL n hn hc
    have := (bound_le hWF hm).1
    omega
  | succ L ih =>
    intro m hm hmL n hn hc
    cases hpid : m.parentId with
    | none => exact absurd hc (hWF.rootNoCont m hm hpid n hn)
    | some p =>
      obtain ⟨P, hP, hPid, hPc⟩ := hWF.parentCont m hm p hpid
      rcases hWF.parentMin m hm p hpid P hP hPid n hn hc with hnP | hnP
      · refine Relation.TransGen.single ⟨hm, hn, ?_⟩
        rw [hpid, hnP, hPid]
      · have hPL : P.left ≤ L := by
          have h1 := hPc.1
          omega
        have hdesc := ih P hP hPL n hn hnP
        refine Relation.TransGen.head ⟨hm, hP, ?_⟩ hdesc
        rw [hpid, hPid]

theorem descendant_iff_contains {t : List CommentNode} (hWF : WF t)
    {m n : CommentNode} (hm : m ∈ t) (hn : n ∈ t) :
    Descendant t m n ↔ contains n m :=
  ⟨descendant_imp_contains hWF,
   fun hc => contains_imp_descendant hWF m.left m hm (le_refl _) n hn hc⟩

theorem loadTree_perm (t : List CommentNode) : (loadTree t).Perm t :=
  List.perm_insertionSort _ t

theorem loadTree_mem {t : List CommentNode} {q : CommentNode} :
    q ∈ loadTree t ↔ q ∈ t := (loadTree_perm t).mem_iff

theorem map_left_sublist_boundaries (t : List CommentNode) :
    List.Sublist (t.map (fun n => n.left)) (boundaries t) := by
  induction t with
  | nil => exact List.Sublist.refl _
  | cons x xs ih =>
    rw [boundaries_cons, List.map_cons]
    exact List.Sublist.cons₂ _ (List.Sublist.cons _ ih)

theorem nodup_lefts {t : List CommentNode} (hWF : WF t) :
    (t.map (fun n => n.left)).Nodup :=
  hWF.bNodup.sublist (map_left_sublist_boundaries t)

theorem loadTree_sorted {t : List CommentNode} :
    (loadTree t).Pairwise (fun a b : CommentNode => a.left ≤ b.left) :=
  List.sorted_insertionSort _ t

theorem loadTree_sorted_strict {t : List CommentNode} (hWF : WF t) :
    (loadTree t).Pairwise (fun a b : CommentNode => a.left < b.left) := by
  have hnd : ((loadTree t).map (fun n => n.left)).Nodup :=
    (((loadTree_perm t).map _).nodup_iff).mpr (nodup_lefts hWF)
  have hne : (loadTree t).Pairwise (fun a b : CommentNode => a.left ≠ b.left) :=
    List.pairwise_map.mp hnd
  exact (loadTree_sorted.and hne).imp (fun h => lt_of_le_of_ne h.1 h.2)

theorem split_facts {t : List CommentNode} (hWF : WF t)
    {pre rest : List CommentNode} {n : CommentNode}
    (hsplit : loadTree t = pre ++ n :: rest) :
    n ∈ t ∧ (∀ q ∈ pre, q ∈ t ∧ q.left < n.left) ∧
      (∀ q ∈ t, q.left < n.left → q ∈ pre) ∧
      pre.Pairwise (fun a b : CommentNode => a.left < b.left) := by
  have hsort := loadTree_sorted_strict hWF
  rw [hsplit, List.pairwise_append] at hsort
  obtain ⟨hpre, hnrest, hcross⟩ := hsort
  refine ⟨?_, ?_, ?_, hpre⟩
  · rw [← loadTree_mem, hsplit]
    simp
  · intro q hq
    refine ⟨?_, hcross q hq n (List.mem_cons_self _ _)⟩
    rw [← loadTree_mem, hsplit]
    simp [hq]
  · intro q hqt hql
    have hq' : q ∈ pre ++ n :: rest := by
      rw [← hsplit]
      exact loadTree_mem.mpr hqt
    rcases List.mem_append.mp hq' with h | h
    · exact h
    · rcases List.mem_cons.mp h with rfl | h2
      · omega
      · have := (List.pairwise_cons.mp hnrest).1 q h2
        omega

theorem popStack_eq_filter {n : CommentNode} {s : List CommentNode}
    (hs : s.Pairwise (fun a b : CommentNode => a.right < b.right))
    (hne : ∀ q ∈ s, q.right ≠ n.right) :
    popStack n s = s.filter (fun q => decide (n.right < q.right)) := by
  induction s with
  | nil => rfl
  | cons top rest ih =>
    rw [List.pairwise_cons] at hs
    by_cases h : top.right < n.right
    · rw [popStack, if_pos h, List.filter_cons_of_neg
        (by simp only [decide_eq_true_eq]; omega)]
      exact ih hs.2 (fun q hq => hne q (List.mem_cons_of_mem _ hq))
    · have hgt : n.right < top.right := by
        have := hne top (List.mem_cons_self _ _)
        omega
      rw [popStack, if_neg h, List.filter_cons_of_pos (by simp [hgt])]
      congr 1
      symm
      rw [List.filter_eq_self]
      intro q hq
      have := hs.1 q hq
      simp only [decide_eq_true_eq]
      omega

theorem mem_stackOf {pre : List CommentNode} {q : CommentNode} :
    q ∈ stackOf pre ↔ q ∈ pre ∧
      ∀ m ∈ pre, q.left < m.left → m.right < q.right := by
  unfold stackOf
  rw [List.mem_reverse, List.mem_filter, List.all_eq_true]
  constructor
  · rintro ⟨h1, h2⟩
    refine ⟨h1, fun m hm => ?_⟩
    have h3 := h2 m hm
    rw [decide_eq_true_eq] at h3
    exact h3
  · rintro ⟨h1, h2⟩
    refine ⟨h1, fun m hm => ?_⟩
    simp only [decide_eq_true_eq]
    exact h2 m hm

theorem contains_stackCond {t : List CommentNode} (hWF : WF t)
    {pre : List CommentNode} {n q : CommentNode}
    (hqt : q ∈ t) (hnt : n ∈ t)
    (hpre : ∀ m ∈ pre, m ∈ t ∧ m.left < n.left)
    (hc : contains q n) :
    ∀ m ∈ pre, q.left < m.left → m.right < q.right := by
  intro m hm hql
  obtain ⟨hmt, hmlt⟩ := hpre m hm
  have hlwn := hWF.lw n hnt
  have hlwm := hWF.lw m hmt
  have hqm : q ≠ m := fun hEq => absurd (hEq ▸ hql) (lt_irrefl _)
  unfold contains at hc
  rcases hWF.laminar q hqt m hmt hqm with h | h | h | h
  · omega
  · omega
  · exact h.2
  · unfold contains at h
    omega

theorem popStack_stackOf {t : List CommentNode} (hWF : WF t)
    {pre rest : List CommentNode} {n : CommentNode}
    (hsplit : loadTree t = pre ++ n :: rest) :
    popStack n (stackOf pre) =
      (pre.filter (fun q => decide (contains q n))).reverse := by
  obtain ⟨hnt, hpre, hpre_rev, hpsort⟩ := split_facts hWF hsplit
  have hstack_pw : (stackOf pre).Pairwise
      (fun a b : CommentNode => a.right < b.right) := by
    unfold stackOf
    refine List.pairwise_reverse.mpr ?_
    have hfs : (pre.filter (fun q => pre.all
        (fun m => decide (q.left < m.left → m.right < q.right)))).Pairwise
        (fun a b : CommentNode => a.left < b.left) :=
      hpsort.sublist (List.filter_sublist _)
    refine hfs.imp_of_mem ?_
    intro a b ha hb hab
    rw [List.mem_filter, List.all_eq_true] at ha
    have := ha.2 b (List.mem_filter.mp hb).1
    simp only [decide_eq_true_eq] at this
    exact this hab
  have hne : ∀ q ∈ stackOf pre, q.right ≠ n.right := by
    intro q hq
    obtain ⟨hqpre, _⟩ := mem_stackOf.mp hq
    obtain ⟨hqt, hqlt⟩ := hpre q hqpre
    have hqn : q ≠ n := fun hEq => absurd (hEq ▸ hqlt) (lt_irrefl _)
    exact (bounds_distinct hWF.bNodup q hqt n hnt hqn).2.2.2
  rw [popStack_eq_filter hstack_pw hne]
  unfold stackOf
  rw [List.filter_reverse]
  congr 1
  rw [List.filter_filter]
  apply List.filter_congr
  intro q hq
  obtain ⟨hqt, hqlt⟩ := hpre q hq
  by_cases hc : contains q n
  · have h1 : decide (n.right < q.right) = true := by
      simp only [decide_eq_true_eq]
      exact hc.2
    have h2 : (pre.all (fun m => decide (q.left < m.left → m.right < q.right)))
        = true := by
      rw [List.all_eq_true]
      intro m hm
      simp only [decide_eq_true_eq]
      exact contains_stackCond hWF hqt hnt hpre hc m hm
    rw [h1, h2]
    simp [hc]
  · have h3 : ¬ n.right < q.right := by
      intro hgt
      exact hc ⟨hqlt, hgt⟩
    have h1 : decide (n.right < q.right) = false := by
      simp only [decide_eq_false_iff_not]
      exact h3
    rw [h1]
    simp [hc]

theorem stackOf_append {t : List CommentNode} (hWF : WF t)
    {pre rest : List CommentNode} {n : CommentNode}
    (hsplit : loadTree t = pre ++ n :: rest) :
    stackOf (pre ++ [n]) = n :: popStack n (stackOf pre) := by
  obtain ⟨hnt, hpre, hpre_rev, hpsort⟩ := split_facts hWF hsplit
  rw [popStack_stackOf hWF hsplit]
  unfold stackOf
  rw [List.filter_append]
  have hn_cond : ((pre ++ [n]).all
      (fun m => decide (n.left < m.left → m.right < n.right))) = true := by
    rw [List.all_eq_true]
    intro m hm
    simp only [decide_eq_true_eq]
    rcases List.mem_append.mp hm with h | h
    · have := (hpre m h).2
      omega
    · have hmn : m = n := by simpa using h
      rw [hmn]
      omega
  have hsing : ([n].filter (fun q => (pre ++ [n]).all
      (fun m => decide (q.left < m.left → m.right < q.right)))) = [n] := by
    rw [List.filter_eq_self]
    intro a ha
    have ha2 : a = n := by simpa using ha
    rw [ha2]
    exact hn_cond
  rw [hsing]
  have hcong : (pre.filter (fun q => (pre ++ [n]).all
      (fun m => decide (q.left < m.left → m.right < q.right)))) =
      pre.filter (fun q => decide (contains q n)) := by
    apply List.filter_congr
    intro q hq
    obtain ⟨hqt, hqlt⟩ := hpre q hq
    rw [List.all_append]
    by_cases hc : contains q n
    · have h2 : (pre.all (fun m => decide (q.left < m.left → m.right < q.right)))
          = true := by
        rw [List.all_eq_true]
        intro m hm
        simp only [decide_eq_true_eq]
        exact contains_stackCond hWF hqt hnt hpre hc m hm
      have h3 : ([n].all (fun m => decide (q.left < m.left → m.right < q.right)))
          = true := by
        simp only [List.all_cons, List.all_nil, Bool.and_true,
          decide_eq_true_eq]
        intro _
        exact hc.2
      rw [h2, h3]
      simp [hc]
    · have h3 : ([n].all (fun m => decide (q.left < m.left → m.right < q.right)))
          = false := by
        simp only [List.all_cons, List.all_nil, Bool.and_true,
          decide_eq_false_iff_not]
        intro hImp
        exact hc ⟨hqlt, hImp hqlt⟩
      rw [h3]
      simp [hc]
  rw [hcong, List.reverse_append]
  simp

theorem getLast_max {l : List CommentNode} {P : CommentNode}
    (hsort : l.Pairwise (fun a b : CommentNode => a.left < b.left))
    (hP : P ∈ l) (hmax : ∀ q ∈ l, q = P ∨ q.left < P.left) :
    l.getLast? = some P := by
  induction l with
  | nil => cases hP
  | cons x xs ih =>
    cases hxs : xs with
    | nil =>
      subst hxs
      have hPx : P = x := by simpa using hP
      rw [hPx]
      rfl
    | cons y ys =>
      have hPxs : P ∈ xs := by
        rcases List.mem_cons.mp hP with hPx | h
        · exfalso
          have hy : y ∈ xs := by
            rw [hxs]
            exact List.mem_cons_self _ _
          have hpwy := (List.pairwise_cons.mp hsort).1 y hy
          rcases hmax y (List.mem_cons_of_mem _ hy) with h1 | h1
          · rw [h1, hPx] at hpwy
            exact absurd hpwy (lt_irrefl _)
          · rw [hPx] at h1
            omega
        · exact h
      rw [List.getLast?_cons_cons, ← hxs]
      exact ih (List.pairwise_cons.mp hsort).2 hPxs
        (fun q hq => hmax q (List.mem_cons_of_mem _ hq))

theorem reconstruct_head {t : List CommentNode} (hWF : WF t)
    {pre rest : List CommentNode} {n : CommentNode}
    (hsplit : loadTree t = pre ++ n :: rest) :
    ((pre.filter (fun q => decide (contains q n))).reverse).head?.map
      (fun q => q.id) = n.parentId := by
  obtain ⟨hnt, hpre, hpre_rev, hpsort⟩ := split_facts hWF hsplit
  rw [List.head?_reverse]
  cases hpid : n.parentId with
  | none =>
    have hnil : pre.filter (fun q => decide (contains q n)) = [] := by
      rw [List.filter_eq_nil_iff]
      intro q hq
      simp only [decide_eq_true_eq]
      exact hWF.rootNoCont n hnt hpid q (hpre q hq).1
    rw [hnil]
    rfl
  | some p =>
    obtain ⟨P, hPt, hPid, hPc⟩ := hWF.parentCont n hnt p hpid
    have hPpre : P ∈ pre := hpre_rev P hPt hPc.1
    have hPfil : P ∈ pre.filter (fun q => decide (contains q n)) :=
      List.mem_filter.mpr ⟨hPpre, by simp [hPc]⟩
    have hsortf : (pre.filter (fun q => decide (contains q n))).Pairwise
        (fun a b : CommentNode => a.left < b.left) :=
      hpsort.sublist (List.filter_sublist _)
    have hmax : ∀ q ∈ pre.filter (fun q => decide (contains q n)),
        q = P ∨ q.left < P.left := by
      intro q hq
      rw [List.mem_filter] at hq
      have hqc : contains q n := by simpa using hq.2
      rcases hWF.parentMin n hnt p hpid P hPt hPid q (hpre q hq.1).1 hqc
        with h | h
      · exact Or.inl h
      · exact Or.inr h.1
    rw [getLast_max hsortf hPfil hmax]
    simp [hPid]

theorem reconstructAux_spec {t : List CommentNode} (hWF : WF t) :
    ∀ (rest pre : List CommentNode), loadTree t = pre ++ rest →
      reconstructAux (stackOf pre) rest =
        rest.map (fun n => (n.id, n.parentId)) := by
  intro rest
  induction rest with
  | nil =>
    intro pre h
    rfl
  | cons n rest ih =>
    intro pre hsplit
    have hstep : reconstructAux (stackOf pre) (n :: rest) =
        (n.id, (popStack n (stackOf pre)).head?.map (fun q => q.id)) ::
          reconstructAux (n :: popStack n (stackOf pre)) rest := rfl
    rw [hstep, popStack_stackOf hWF hsplit, reconstruct_head hWF hsplit,
      ← popStack_stackOf hWF hsplit, ← stackOf_append hWF hsplit,
      ih (pre ++ [n]) (by rw [hsplit, List.append_assoc]; rfl), List.map_cons]

theorem reconstruct_spec {t : List CommentNode} (hWF : WF t) :
    reconstruct (loadTree t) = (loadTree t).map (fun n => (n.id, n.parentId)) :=
  reconstructAux_spec hWF (loadTree t) [] rfl

theorem built_tEx4 : Built tEx4 :=
  Built.step (some 2) 4 8 "r" 3
    (Built.step none 3 7 "c3" 2
      (Built.step none 2 7 "c2" 1
        (Built.step none 1 7 "c1" 0 Built.nil rfl) rfl) rfl) rfl

/-- C5: in every tree built by addComment calls, every node has left smaller
than right, every child interval is strictly inside the interval of its
recorded parent, sibling intervals are pairwise disjoint and ordered
left-to-right in creation order, and right - left is odd with
(right - left - 1) / 2 equal to the number of strict descendants (the nodes
strictly contained in the interval, which coincide with the parentId-chain
descendants). -/
theorem C5_interval_invariants (t : List CommentNode) (h : Built t) :
    (∀ n ∈ t, n.left < n.right) ∧
    (∀ n ∈ t, ∀ p, n.parentId = some p →
      ∃ P ∈ t, P.id = p ∧ P.left < n.left ∧ n.right < P.right) ∧
    t.Pairwise (fun m n => m.parentId = n.parentId → m.right < n.left) ∧
    (∀ n ∈ t, (n.right - n.left) % 2 = 1 ∧
      (n.right - n.left - 1) / 2 = t.countP (fun m => decide (contains n m)) ∧
      (∀ m ∈ t, contains n m ↔ Descendant t m n)) := by
  have hWF := wf_built h
  refine ⟨hWF.lw, ?_, hWF.sibOrder, ?_⟩
  · intro n hn p hp
    obtain ⟨P, hP, hPid, hc⟩ := hWF.parentCont n hn p hp
    exact ⟨P, hP, hPid, hc.1, hc.2⟩
  · intro n hn
    have hcount := count_inside hWF hn
    have hlw := hWF.lw n hn
    refine ⟨by omega, by omega, ?_⟩
    intro m hm
    exact (descendant_iff_contains hWF hm hn).symm

theorem C5_interval_invariants_witness :
    ((⟨2, none, 7, "c2", 1, 3, 6, 0⟩ : CommentNode).right -
        (⟨2, none, 7, "c2", 1, 3, 6, 0⟩ : CommentNode).left) % 2 = 1 ∧
    ((⟨2, none, 7, "c2", 1, 3, 6, 0⟩ : CommentNode).right -
        (⟨2, none, 7, "c2", 1, 3, 6, 0⟩ : CommentNode).left - 1) / 2 =
      tEx4.countP (fun m => decide (contains ⟨2, none, 7, "c2", 1, 3, 6, 0⟩ m)) :=
  ⟨((C5_interval_invariants tEx4 built_tEx4).2.2.2 _ (by decide)).1,
   ((C5_interval_invariants tEx4 built_tEx4).2.2.2 _ (by decide)).2.1⟩

/-- C6: in a built tree a node is a leaf exactly when right - left equals 1,
has children exactly when right - left exceeds 1, and its strict descendants
are exactly the nodes of the tree with strictly larger left and strictly
smaller right boundary. -/
theorem C6_leaf_descendants (t : List CommentNode) (h : Built t)
    (n : CommentNode) (hn : n ∈ t) :
    ((¬ ∃ m ∈ t, m.parentId = some n.id) ↔ n.right - n.left = 1) ∧
    ((∃ m ∈ t, m.parentId = some n.id) ↔ n.right - n.left > 1) ∧
    (∀ m ∈ t, Descendant t m n ↔
      (n.left < m.left ∧ m.right < n.right)) := by
  have hWF := wf_built h
  have hlw := hWF.lw n hn
  have hcount := count_inside hWF hn
  have hchild_iff : (∃ m ∈ t, m.parentId = some n.id) ↔
      n.right - n.left > 1 := by
    constructor
    · rintro ⟨m, hm, hpm⟩
      have hc : contains n m := child_contains hWF ⟨hm, hn, hpm⟩
      have hlwm := hWF.lw m hm
      unfold contains at hc
      omega
    · intro hgt
      have hpos : 0 < t.countP (fun m => decide (contains n m)) := by omega
      obtain ⟨m, hm, hmc⟩ := List.countP_pos.mp hpos
      have hcm : contains n m := by simpa using hmc
      have hd : Descendant t m n :=
        (descendant_iff_contains hWF hm hn).mpr hcm
      cases hd with
      | single hc => exact ⟨m, hc.1, hc.2.2⟩
      | tail h1 hc => exact ⟨_, hc.1, hc.2.2⟩
  refine ⟨?_, hchild_iff, fun m hm => descendant_iff_contains hWF hm hn⟩
  constructor
  · intro hno
    have h1 : ¬ n.right - n.left > 1 := fun hgt => hno (hchild_iff.mpr hgt)
    omega
  · intro hEq hex
    have := hchild_iff.mp hex
    omega

theorem C6_leaf_descendants_witness :
    Descendant tEx4 ⟨4, some 2, 8, "r", 3, 4, 5, 1⟩
      ⟨2, none, 7, "c2", 1, 3, 6, 0⟩ ↔
      ((⟨2, none, 7, "c2", 1, 3, 6, 0⟩ : CommentNode).left <
        (⟨4, some 2, 8, "r", 3, 4, 5, 1⟩ : CommentNode).left ∧
       (⟨4, some 2, 8, "r", 3, 4, 5, 1⟩ : CommentNode).right <
        (⟨2, none, 7, "c2", 1, 3, 6, 0⟩ : CommentNode).right) :=
  (C6_leaf_descendants tEx4 built_tEx4 _ (by decide)).2.2 _ (by decide)

/-- C7 as stated is false on the code: in the concrete scenario the reply
under the second comment opens the gap at insertionPoint 4, so the first
comment keeps boundaries (1,2) - its absolute values do not shift by +2. -/
theorem C7_counterexample :
    addComment tEx3 (some 2) 4 8 "r" 3 = some tEx4 ∧
    tEx3.find? (fun m => m.id == 1) =
      some ⟨1, none, 7, "c1", 0, 1, 2, 0⟩ ∧
    tEx4.find? (fun m => m.id == 1) =
      some ⟨1, none, 7, "c1", 0, 1, 2, 0⟩ ∧
    ¬ (tEx4.find? (fun m => m.id == 1) =
      some ⟨1, none, 7, "c1", 0, 1 + 2, 2 + 2, 0⟩) := by decide

/-- C7 amended: three sequential top-level comments on an empty post receive
strictly increasing, non-overlapping intervals (1,2), (3,4), (5,6) in
submission order; the reply nested under the second comment receives (4,5),
strictly inside the second comment interval (3,6); the third comment
boundaries shift by +2 to (7,8) while the first comment keeps (1,2), and the
relative order of the first and third comments is preserved. -/
theorem C7_insertion_ordering :
    addComment ([] : List CommentNode) none 1 7 "c1" 0 = some tEx1 ∧
    addComment tEx1 none 2 7 "c2" 1 = some tEx2 ∧
    addComment tEx2 none 3 7 "c3" 2 = some tEx3 ∧
    addComment tEx3 (some 2) 4 8 "r" 3 = some tEx4 ∧
    tEx3.Pairwise (fun a b => a.right < b.left) ∧
    contains ⟨2, none, 7, "c2", 1, 3, 6, 0⟩ ⟨4, some 2, 8, "r", 3, 4, 5, 1⟩ ∧
    tEx4 = [⟨1, none, 7, "c1", 0, 1, 2, 0⟩, ⟨2, none, 7, "c2", 1, 3, 6, 0⟩,
      ⟨3, none, 7, "c3", 2, 7, 8, 0⟩, ⟨4, some 2, 8, "r", 3, 4, 5, 1⟩] ∧
    (tEx4.filter (fun m => m.parentId == none)).Pairwise
      (fun a b => a.right < b.left) := by decide

/-- C8: for every built tree, loadTree returns the stored nodes ordered by
strictly ascending left boundary (a permutation of the rows, i.e. preorder),
and the single linear stack-based reconstruction pass over that sequence
records for every node exactly its stored parentId (none for roots), with no
further storage queries. -/
theorem C8_reconstruction_roundtrip (t : List CommentNode) (h : Built t) :
    (loadTree t).Perm t ∧
    (loadTree t).Pairwise (fun a b : CommentNode => a.left < b.left) ∧
    reconstruct (loadTree t) =
      (loadTree t).map (fun n => (n.id, n.parentId)) := by
  have hWF := wf_built h
  exact ⟨loadTree_perm t, loadTree_sorted_strict hWF, reconstruct_spec hWF⟩

theorem C8_reconstruction_roundtrip_witness :
    reconstruct (loadTree tEx4) =
      (loadTree tEx4).map (fun n => (n.id, n.parentId)) :=
  (C8_reconstruction_roundtrip tEx4 built_tEx4).2.2
